import Mathlib

/-!
Verification of the gigaredPlay lookup-cache-and-reconciliation layer.

The definitions below are shallow embeddings of the Python sources
src/ph.py, src/tv.py and src/main.py.  Machine floats used for timestamps
and TTLs are modelled as integers (only ordering and subtraction of times
is ever used by the code); Unicode NFD accent stripping is modelled by a
character table covering the Latin accented range the application handles;
Python str.upper and str.lower are modelled on the ASCII range.
-/

/- Basic association-list utilities modelling Python dict semantics:
   assignment keeps the position of an existing key and appends new keys,
   and lookup returns the unique binding. -/

def alookup {κ α : Type _} [DecidableEq κ] (k : κ) : List (κ × α) → Option α
  | [] => none
  | (k', v) :: rest => if k' = k then some v else alookup k rest

def dinsert {κ α : Type _} [DecidableEq κ] (k : κ) (v : α) : List (κ × α) → List (κ × α)
  | [] => [(k, v)]
  | (k', v') :: rest => if k' = k then (k, v) :: rest else (k', v') :: dinsert k v rest

/- Text normalisation helpers shared by src/ph.py and src/tv.py.
   foldAccent models one step of unicodedata.normalize("NFD", s) followed by
   dropping combining marks, on the Latin accented characters. -/

def foldAccent (c : Char) : Char :=
  match c with
  | 'á' | 'à' | 'â' | 'ä' | 'ã' => 'a'
  | 'é' | 'è' | 'ê' | 'ë' => 'e'
  | 'í' | 'ì' | 'î' | 'ï' => 'i'
  | 'ó' | 'ò' | 'ô' | 'ö' | 'õ' => 'o'
  | 'ú' | 'ù' | 'û' | 'ü' => 'u'
  | 'ñ' => 'n'
  | 'ç' => 'c'
  | 'Á' | 'À' | 'Â' | 'Ä' | 'Ã' => 'A'
  | 'É' | 'È' | 'Ê' | 'Ë' => 'E'
  | 'Í' | 'Ì' | 'Î' | 'Ï' => 'I'
  | 'Ó' | 'Ò' | 'Ô' | 'Ö' | 'Õ' => 'O'
  | 'Ú' | 'Ù' | 'Û' | 'Ü' => 'U'
  | 'Ñ' => 'N'
  | 'Ç' => 'C'
  | _ => c

/-- Accent folding followed by uppercasing, as in tv._name_signature and
ph._normalize_text (NFD strip then .upper()). -/
def foldUpper (c : Char) : Char := (foldAccent c).toUpper

/-- Membership in the regex class [A-Z0-9] applied after folding. -/
def isSigTokChar (c : Char) : Bool :=
  ('A' ≤ c && c ≤ 'Z') || ('0' ≤ c && c ≤ '9')


/- Kernel-computable string helpers modelling the Python str methods used
by the sources (strip, lower, upper, startswith, split, replace, join);
they operate on the character list of the string. -/

/-- Characters removed by Python str.strip() with no argument. -/
def isPyWs (c : Char) : Bool :=
  c = ' ' || c = '\t' || c = '\n' || c = '\r' || c = '\x0b' || c = '\x0c'

def strTrim (s : String) : String :=
  String.mk (((s.toList.dropWhile isPyWs).reverse.dropWhile isPyWs).reverse)

def strToLower (s : String) : String := String.mk (s.toList.map Char.toLower)

def strToUpper (s : String) : String := String.mk (s.toList.map Char.toUpper)

def strStartsWith (s pre : String) : Bool := pre.toList.isPrefixOf s.toList

/-- Split a character list at separators, keeping empty pieces, as Python
str.split with an explicit separator does. -/
def splitKeep (p : Char → Bool) : List Char → List (List Char)
  | [] => [[]]
  | c :: cs =>
    match splitKeep p cs with
    | [] => [[]]
    | g :: gs => if p c then [] :: g :: gs else (c :: g) :: gs

def strSplit (p : Char → Bool) (s : String) : List String := (splitKeep p s.toList).map String.mk

/-- Replace every non-overlapping occurrence of pat, scanning left to
right, as Python str.replace does (patterns used here are non-empty). -/
def replaceAll (pat rep : List Char) : List Char → List Char
  | [] => []
  | c :: cs =>
    if h : pat ≠ [] ∧ List.isPrefixOf pat (c :: cs) then
      rep ++ replaceAll pat rep ((c :: cs).drop pat.length)
    else c :: replaceAll pat rep cs
termination_by cs => cs.length
decreasing_by
  · simp_wf
    have hlen : 1 ≤ pat.length := List.length_pos.2 h.1
    omega
  · simp_wf

def strReplace (s pat rep : String) : String :=
  String.mk (replaceAll pat.toList rep.toList s.toList)

/-- Python " ".join on a list of words. -/
def joinSpace : List String → String
  | [] => ""
  | [x] => x
  | x :: xs => x ++ " " ++ joinSpace xs

/-- Maximal runs of characters satisfying isSigTokChar, in order, as produced
by re.findall of the pattern of uppercase alphanumeric runs.  The second
argument accumulates the current run in reverse. -/
def tokenRunsAux : List Char → List Char → List String
  | [], cur => if cur = [] then [] else [String.mk cur.reverse]
  | c :: cs, cur =>
    if isSigTokChar c then tokenRunsAux cs (c :: cur)
    else if cur = [] then tokenRunsAux cs []
    else String.mk cur.reverse :: tokenRunsAux cs []

def tokenRuns (cs : List Char) : List String := tokenRunsAux cs []

namespace Tv

/-- List of alphanumeric tokens of a name after accent folding and
uppercasing, in order of appearance (src/tv.py _name_signature before
forming the Counter). -/
def nameTokens (s : String) : List String := tokenRuns (s.toList.map foldUpper)

/-- Token multiset of a name: src/tv.py _name_signature.  A collections
Counter compares equal exactly when the token multisets are equal, so the
Counter is modelled as a Multiset. -/
def name_signature (s : String) : Multiset String := (nameTokens s : Multiset String)

/-- Python _norm: (value or "").strip(). -/
def norm (s : String) : String := strTrim s

/-- Characters removed by the regex substitution of whitespace, underscore
and hyphen runs in tv._normkey. -/
def isKeyDropChar (c : Char) : Bool :=
  c = ' ' || c = '\t' || c = '\n' || c = '\r' || c = '_' || c = '-'

/-- src/tv.py _normkey: strip accents, lowercase, drop whitespace,
underscores and hyphens. -/
def normkey (s : String) : String :=
  String.mk ((s.toList.map (fun c => (foldAccent c).toLower)).filter (fun c => !isKeyDropChar c))

/- A parsed sheet row: a Python dict from header name to cell string. -/
abbrev Rec := List (String × String)

/-- Number of non-empty cells of a raw row (sum of 1 for cells whose
stripped value is non-empty). -/
def countNonempty (row : List String) : Nat := row.countP (fun c => decide (norm c ≠ ""))

/-- True when a raw row contains a cell case-insensitively equal to CIC. -/
def rowHasCIC (row : List String) : Bool := row.any (fun c => decide (strToUpper (norm c) = "CIC"))

/-- Header-row selection loop of load_data_from_sheet over the first five
rows: a row containing CIC wins immediately, otherwise the earliest row
with the strictly largest number of non-empty cells is kept. -/
def pickHeaderAux : List (List String) → Nat → Nat → Int → Nat
  | [], _, hi, _ => hi
  | row :: rest, idx, hi, best =>
    let ne : Int := countNonempty row
    if rowHasCIC row then idx
    else if ne > best then pickHeaderAux rest (idx + 1) idx ne
    else pickHeaderAux rest (idx + 1) hi best

def pick_header (values : List (List String)) : Nat :=
  pickHeaderAux (values.take 5) 0 0 (-1)

/-- Name given to a header cell before de-duplication: the stripped cell, or
a synthetic col_ name from the 1-based position when blank. -/
def baseName (h : String) (j : Nat) : String :=
  if norm h = "" then "col_" ++ toString (j + 1) else norm h

/-- Header de-duplication loop of load_data_from_sheet.  seen maps a base
name to the number of times it has occurred; a repeated base name is
suffixed with an underscore and its occurrence count, and the generated
suffixed name itself is not recorded in seen (exactly as in the source). -/
def buildHeadersAux : List String → Nat → List (String × Nat) → List String
  | [], _, _ => []
  | h :: rest, j, seen =>
    let name0 := baseName h j
    match alookup name0 seen with
    | some n => (name0 ++ "_" ++ toString (n + 1)) :: buildHeadersAux rest (j + 1) (dinsert name0 (n + 1) seen)
    | none => name0 :: buildHeadersAux rest (j + 1) (dinsert name0 1 seen)

def sheet_headers (headerRaw : List String) : List String := buildHeadersAux headerRaw 0 []

/-- Record built from one data row: a dict comprehension over header
positions, padding short rows with empty strings.  Later duplicate header
names overwrite earlier ones, as in a Python dict comprehension. -/
def row_record (headers : List String) (row : List String) : Rec :=
  (headers.enum).foldl (fun acc p => dinsert p.2 (if p.1 < row.length then norm (row.getD p.1 "") else "") acc) []

/-- src/tv.py load_data_from_sheet as a pure function of the raw grid (the
sheet read and the grid cache are external effects around this logic). -/
def load_data_from_sheet (values : List (List String)) : List Rec :=
  if values.isEmpty then []
  else
    let hi := pick_header values
    let headers := sheet_headers (values.getD hi [])
    ((values.drop (hi + 1)).filter (fun row => row.any (fun c => decide (norm c ≠ "")))).map
      (row_record headers)

/-- src/tv.py _find_key: tolerant column lookup on a parsed row; exact
collapsed-key match over candidates first, then prefix match, with the
normalised dict built by insertion order (later duplicate collapsed keys
overwrite earlier ones, as the dict comprehension does). -/
def find_key (row : Rec) (candidates : List String) : Option String :=
  if row.isEmpty then none
  else
    let normalised : List (String × String) :=
      row.foldl (fun acc p => dinsert (normkey p.1) p.1 acc) []
    let desired := candidates.map normkey
    match desired.findSome? (fun c => alookup c normalised) with
    | some k => some k
    | none =>
      desired.findSome? (fun c =>
        normalised.findSome? (fun p => if strStartsWith p.1 c then some p.2 else none))

/-- src/tv.py _get_abonado_num. -/
def get_abonado_num (row : Rec) : String :=
  match find_key row ["Gigared", "Abonado", "Numero", "Nro Abonado"] with
  | none => ""
  | some key => strTrim ((alookup key row).getD "")

structure MatchResult where
  abonado : String
  row : Rec
  cic : String
  usuario : String
deriving DecidableEq

/-- Candidate names for the name-bearing column in
encontrar_abonado_por_nombre. -/
def nameCandidates : List String := ["Nombre", "Razon Social", "Razon_Social", "Cliente", "Titular"]

/-- Result dict built by encontrar_abonado_por_nombre for a matching row. -/
def buildMatch (row : Rec) : MatchResult :=
  { abonado := get_abonado_num row
    row := row
    cic := match find_key row ["CIC"] with
      | some k => strTrim ((alookup k row).getD "")
      | none => ""
    usuario := match find_key row ["Usuario", "Usuario GP", "Usuario GigaredPlay", "User"] with
      | some k => strTrim ((alookup k row).getD "")
      | none => "" }

/-- src/tv.py encontrar_abonado_por_nombre as a pure function of the parsed
rows: first row whose name-cell token signature equals the query signature. -/
def encontrar_abonado_por_nombre (rows : List Rec) (nombre_busqueda : String) : Option MatchResult :=
  let signature_query := name_signature nombre_busqueda
  rows.findSome? (fun row =>
    match find_key row nameCandidates with
    | none => none
    | some key_nombre =>
      if name_signature ((alookup key_nombre row).getD "") = signature_query then
        some (buildMatch row)
      else none)

structure AvailableCredential where
  usuario : String
  cic : String
  row_index : Nat
deriving DecidableEq

/-- Column search of obtener_usuario_cic_disponible: exact collapsed-key
match over the first row, then prefix match, with -1 as the absent
sentinel (exactly as find_col_idx in the source). -/
def find_col_idx (headers : List String) (name : String) : Int :=
  let target := normkey name
  match headers.findIdx? (fun h => decide (normkey h = target)) with
  | some i => (i : Int)
  | none =>
    match headers.findIdx? (fun h => strStartsWith (normkey h) target) with
    | some i => (i : Int)
    | none => -1

/-- Data-row scan of obtener_usuario_cic_disponible; row_index is the
0-based grid index of the row being examined. -/
def obtenerScan (idx_user idx_cic idx_reg : Nat) : List (List String) → Nat → Option AvailableCredential
  | [], _ => none
  | row :: rest, row_index =>
    let reg_raw := strToLower (strTrim (row.getD idx_reg ""))
    if reg_raw = "no" || reg_raw = "n" || reg_raw = "false" || reg_raw = "0" then
      let usuario := strTrim (row.getD idx_user "")
      let cic := strTrim (row.getD idx_cic "")
      if usuario ≠ "" ∨ cic ≠ "" then some ⟨usuario, cic, row_index + 1⟩
      else obtenerScan idx_user idx_cic idx_reg rest (row_index + 1)
    else obtenerScan idx_user idx_cic idx_reg rest (row_index + 1)

/-- src/tv.py obtener_usuario_cic_disponible as a pure function of the raw
grid. -/
def obtener_usuario_cic_disponible (values : List (List String)) : Option AvailableCredential :=
  if values.isEmpty || values.length < 2 then none
  else
    let headers := values.getD 0 []
    let idx_cic := find_col_idx headers "CIC"
    let idx_user := find_col_idx headers "Usuario"
    let idx_reg := find_col_idx headers "Registrado"
    if min idx_cic (min idx_user idx_reg) < 0 then none
    else obtenerScan idx_user.toNat idx_cic.toNat idx_reg.toNat (values.drop 1) 1

/- The tabular-source cache of src/tv.py: a plain dict from key to
(timestamp, value); get checks only the accessed entry and pops it when
expired, set stores unconditionally.  Values are deep-copied on both set
and get; in this functional model a copy is the value itself (the heap
model for the copy-semantics claim is separate, below). -/

def cache_get {V : Type _} (ttl now : Int) (key : String) (c : List (String × Int × V)) :
    Option V × List (String × Int × V) :=
  if ttl ≤ 0 then (none, c)
  else
    match alookup key c with
    | none => (none, c)
    | some (ts, v) =>
      if now - ts > ttl then (none, c.filter (fun e => decide (e.1 ≠ key)))
      else (some v, c)

def cache_set {V : Type _} (ttl now : Int) (key : String) (v : V) (c : List (String × Int × V)) :
    List (String × Int × V) :=
  if ttl ≤ 0 then c else dinsert key (now, v) c

end Tv

/- JSON-like values returned by the upstream Phantom API (src/ph.py).
   Python ints and floats are collapsed to num; a successfully parsed
   response body is one of these values. -/

inductive JVal where
  | null
  | b (v : Bool)
  | num (n : Int)
  | s (v : String)
  | arr (xs : List JVal)
  | obj (fs : List (String × JVal))

/-- Python truthiness of a parsed JSON value. -/
def jTruthy : JVal → Bool
  | .null => false
  | .b v => v
  | .num n => decide (n ≠ 0)
  | .s v => decide (v ≠ "")
  | .arr xs => !xs.isEmpty
  | .obj fs => !fs.isEmpty

mutual

/-- Python repr() of a value (string quoting inside containers is modelled
without escape processing; only scalar values reach str() in the source). -/
def pyRepr : JVal → String
  | .null => "None"
  | .b true => "True"
  | .b false => "False"
  | .num n => toString n
  | .s v => "\x27" ++ v ++ "\x27"
  | .arr xs => "[" ++ pyReprList xs ++ "]"
  | .obj fs => "\x7b" ++ pyReprFields fs ++ "\x7d"

def pyReprList : List JVal → String
  | [] => ""
  | [x] => pyRepr x
  | x :: xs => pyRepr x ++ ", " ++ pyReprList xs

def pyReprFields : List (String × JVal) → String
  | [] => ""
  | [(k, v)] => "\x27" ++ k ++ "\x27: " ++ pyRepr v
  | (k, v) :: fs => "\x27" ++ k ++ "\x27: " ++ pyRepr v ++ ", " ++ pyReprFields fs

end

/-- Python str() of a value. -/
def pyStr : JVal → String
  | .null => "None"
  | .b true => "True"
  | .b false => "False"
  | .num n => toString n
  | .s v => v
  | .arr xs => "[" ++ pyReprList xs ++ "]"
  | .obj fs => "\x7b" ++ pyReprFields fs ++ "\x7d"

namespace Ph

/-- Python dict.get with None default, on a parsed JSON object. -/
def jget (fs : List (String × JVal)) (k : String) : JVal := (alookup k fs).getD .null

/-- Python a or b on values: b when a is falsy. -/
def pyOr (a b : JVal) : JVal := if jTruthy a then a else b

/-- True for values whose Python type is str, int (including bool) or
float, as tested by the self-yield branch of _iter_records. -/
def isScalarish : JVal → Bool
  | .s _ => true
  | .num _ => true
  | .b _ => true
  | _ => false

/-- Keys under which _iter_records looks for a list of records inside a
dict response. -/
def recordListKeys : List String := ["abonados", "Abonados", "data", "Data", "rows", "items", "result"]

/-- Dict elements of a JSON list. -/
def dictItems (xs : List JVal) : List (List (String × JVal)) :=
  xs.filterMap (fun x => match x with | .obj fs => some fs | _ => none)

/-- src/ph.py _iter_records: records of a parsed response, in yield order. -/
def iter_records : JVal → List (List (String × JVal))
  | .arr xs => dictItems xs
  | .obj fs =>
    (recordListKeys.foldl (fun acc k =>
      acc ++ (match alookup k fs with
        | some (.arr xs) => dictItems xs
        | _ => [])) [])
    ++ (if fs.any (fun p => isScalarish p.2) then [fs] else [])
  | _ => []

inductive Transport where
  | post_json
  | post_form
  | get_query
deriving DecidableEq

abbrev Payload := List (String × JVal)

/-- The four candidate payload shapes tried by consulta_masiva_por_id, in
order. -/
def payloads_for (token : String) (ida : Int) : List Payload :=
  [ [("token", .s token), ("ID_Desde", .num ida), ("ID_Hasta", .num ida)],
    [("token", .s token), ("Id_Desde", .num ida), ("Id_Hasta", .num ida)],
    [("token", .s token), ("IDDesde", .num ida), ("IDHasta", .num ida)],
    [("token", .s token), ("Desde", .num ida), ("Hasta", .num ida)] ]

/-- The upstream HTTP world: for a payload and a transport variant it
yields the parsed body of an HTTP 200 response, or none when the request
raised, returned a non-200 status, or returned an unparseable body (all of
which make the _req_masiva loop move on). -/
abbrev Env := Payload → Transport → Option JVal

/-- src/ph.py _req_masiva: POST-JSON, then POST-form, then GET-query,
stopping at the first success. -/
def req_masiva (env : Env) (payload : Payload) : Option JVal :=
  match env payload .post_json with
  | some d => some d
  | none =>
    match env payload .post_form with
    | some d => some d
    | none => env payload .get_query

/-- The filter consulta_masiva_por_id applies to a dict response: a
response carrying a code field whose str() is neither 200 nor OK is
skipped. -/
def bad_code : JVal → Bool
  | .obj fs =>
    match alookup "code" fs with
    | some c => decide (¬ (pyStr c = "200" ∨ pyStr c = "OK"))
    | none => false
  | _ => false

/-- Identifier of a record: str of the first truthy among its ID and IDA
fields, else the empty string. -/
def rec_id (rec : List (String × JVal)) : String :=
  pyStr (pyOr (jget rec "ID") (pyOr (jget rec "IDA") (.s "")))

/-- Payload loop of consulta_masiva_por_id. -/
def consultaAux (env : Env) (ida : Int) : List Payload → Option (List (String × JVal))
  | [] => none
  | p :: rest =>
    match req_masiva env p with
    | none => consultaAux env ida rest
    | some data =>
      if !jTruthy data then consultaAux env ida rest
      else if bad_code data then consultaAux env ida rest
      else
        let recs := iter_records data
        match recs.find? (fun rec => decide (rec_id rec = toString ida)) with
        | some rec => some rec
        | none =>
          match recs with
          | rec :: _ => some rec
          | [] => consultaAux env ida rest

/-- src/ph.py consulta_masiva_por_id with the authentication token already
obtained (the token call is an external effect before this logic). -/
def consulta_masiva_por_id (env : Env) (token : String) (ida : Int) :
    Option (List (String × JVal)) :=
  consultaAux env ida (payloads_for token ida)

/- Email extraction (src/ph.py _clean_email_text, _EMAIL_RE, extraer_mail). -/

/-- Character class of the local part of the email regex, case folded. -/
def isLocalChar (c : Char) : Bool :=
  c.isAlpha || c.isDigit || c = '.' || c = '_' || c = '%' || c = '+' || c = '-'

/-- Character class of the domain part of the email regex. -/
def isDomChar (c : Char) : Bool := c.isAlpha || c.isDigit || c = '.' || c = '-'

/-- Domain match after an at sign: the regex takes the maximal run of
domain characters, backtracks to the rightmost dot that is followed by at
least two letters, and then takes the maximal letter run.  Returns the
matched domain text. -/
def domainMatch (rest : List Char) : Option (List Char) :=
  let dom := rest.takeWhile isDomChar
  match ((List.range dom.length).reverse.find? (fun i =>
    decide (1 ≤ i) && decide (dom.getD i ' ' = '.') &&
    decide (2 ≤ ((dom.drop (i + 1)).takeWhile Char.isAlpha).length))) with
  | some i => some (dom.take i ++ '.' :: (dom.drop (i + 1)).takeWhile Char.isAlpha)
  | none => none

/-- Leftmost match of the email regex: scan for the first at sign preceded
by a non-empty run of local characters (accumulated in reverse in run) and
followed by a valid domain. -/
def searchEmailAux : List Char → List Char → Option (List Char)
  | [], _ => none
  | c :: rest, run =>
    if c = '@' then
      if run ≠ [] then
        match domainMatch rest with
        | some dom => some (run.reverse ++ '@' :: dom)
        | none => searchEmailAux rest []
      else searchEmailAux rest []
    else if isLocalChar c then searchEmailAux rest (c :: run)
    else searchEmailAux rest []

def searchEmail (s : String) : Option String :=
  (searchEmailAux s.toList []).map String.mk

/-- src/ph.py _clean_email_text: obfuscation substitutions applied in
source order (str.replace replaces every occurrence). -/
def clean_email_text (v : JVal) : String :=
  if !jTruthy v then ""
  else
    let s1 := strReplace (strReplace (strReplace (strReplace (pyStr v) " at " "@") "[at]" "@") "(at)" "@") " arroba " "@"
    let s2 := strReplace (strReplace (strReplace s1 " dot " ".") "[dot]" ".") "(dot)" "."
    strReplace (strReplace (strReplace s2 "," " ") ";" " ") "|" " "

/-- src/ph.py extraer_mail. -/
def extraer_mail (record : List (String × JVal)) : String :=
  let keyCands := ["Email", "email", "Mail", "MAIL", "E-mail", "UsuarioAutogestion", "Autogestion_User"]
  let candidates := keyCands.filterMap (fun k =>
    match alookup k record with
    | some v => if jTruthy v then some v else none
    | none => none)
  let candidates := if candidates.isEmpty then
      record.filterMap (fun p => match p.2 with | .s sv => some (JVal.s sv) | _ => none)
    else candidates
  ((candidates.findSome? (fun v => searchEmail (clean_email_text v))).map strToLower).getD ""

/-- Python str.split() with no argument: split on whitespace runs,
dropping empty pieces. -/
def splitWs (s : String) : List String :=
  (strSplit isPyWs s).filter (fun w => decide (w ≠ ""))

/-- src/ph.py _normalize_text on a string value. -/
def normalize_text (s : String) : String := String.mk (s.toList.map foldUpper)

/-- Substring containment after normalisation. -/
def containsSub (s pat : String) : Bool := decide (pat.toList <:+: s.toList)

/-- src/ph.py _parse_product_flags: (TV, HBO, Pack Futbol). -/
def parse_product_flags (productos : String) : Bool × Bool × Bool :=
  let items := ((strSplit (fun c => c = ';') productos).map strTrim).filter (fun p => decide (p ≠ ""))
  let normalized := items.map normalize_text
  ( normalized.any (fun p => containsSub p "SERVICIO TV" || containsSub p "BASICO" || containsSub p "BASIC"),
    normalized.any (fun p => containsSub p "HBO"),
    normalized.any (fun p => containsSub p "PACK FUTB" || containsSub p "FUTBOL" || containsSub p "DEPORTIVO") )

/-- src/ph.py _estado_code. -/
def estado_code_of (value : String) : String :=
  let normalized := normalize_text value
  if strStartsWith normalized "ACT" then "activo"
  else if strStartsWith normalized "SUS" then "suspendido"
  else if strStartsWith normalized "BAJ" then "baja"
  else "desconocido"

/-- Values of the normalized client record produced by
transformar_desde_masiva: strings, booleans and integers. -/
inductive PyVal where
  | s (v : String)
  | b (v : Bool)
  | i (n : Int)
deriving DecidableEq

/-- src/ph.py transformar_desde_masiva. -/
def transformar_desde_masiva (record : List (String × JVal)) : List (String × PyVal) :=
  let nombre_base := pyOr (jget record "RS")
    (.s (pyStr ((alookup "Apellido" record).getD (.s "")) ++ " " ++ pyStr ((alookup "Nombre" record).getD (.s ""))))
  let nombre_limpio := joinSpace (splitWs (strReplace (pyStr nombre_base) "," " "))
  let dni := pyOr (jget record "Documento") (pyOr (jget record "CUIT") (.s ""))
  let mail := pyOr (jget record "Email") (.s (extraer_mail record))
  let iniciales := strToLower (String.join ((splitWs nombre_limpio).map (fun w => String.mk (w.toList.take 1))))
  let contrasena := strTrim (iniciales ++ pyStr dni)
  let flags := parse_product_flags (pyStr (pyOr (jget record "Television") (pyOr (jget record "Productos") (.s ""))))
  let estado_txt := strTrim (pyStr (pyOr (jget record "Estado") (pyOr (jget record "estado") (.s ""))))
  [ ("ID", .s (rec_id record)),
    ("Nombre", .s nombre_limpio),
    ("DNI", .s (match dni with | JVal.null => "" | _ => pyStr dni)),
    ("Mail", .s (strTrim (pyStr (pyOr mail (.s ""))))),
    ("Contrasena", .s contrasena),
    ("TV", .b flags.1),
    ("HBO", .b flags.2.1),
    ("Pack Futbol", .b flags.2.2),
    ("Estado", .s estado_txt),
    ("EstadoCode", .s (estado_code_of estado_txt)),
    ("_via", .s "masiva") ]

/- The upstream-record cache of src/ph.py: an OrderedDict from key to
(timestamp, value), least recently touched first.  Values are copied with
dict() on set and get; in this functional model the copy is the value
itself (the heap model for the copy-semantics claim is separate, below). -/

/-- src/ph.py _purge_expired. -/
def purge_expired {V : Type _} (ttl now : Int) (c : List (String × Int × V)) :
    List (String × Int × V) :=
  if ttl ≤ 0 then [] else c.filter (fun e => decide (now - e.2.1 ≤ ttl))

/-- src/ph.py _cache_get: purge, then on a hit move the entry to the
most-recent end. -/
def cache_get {V : Type _} (ttl now : Int) (key : String) (c : List (String × Int × V)) :
    Option V × List (String × Int × V) :=
  if ttl ≤ 0 then (none, c)
  else
    let c1 := purge_expired ttl now c
    match alookup key c1 with
    | none => (none, c1)
    | some (ts, v) => (some v, c1.filter (fun e => decide (e.1 ≠ key)) ++ [(key, ts, v)])

/-- Eviction loop of _cache_set: pop the least-recent entry while the size
exceeds the (positive) maximum. -/
def evict_old {α : Type _} (maxE : Int) : List α → List α
  | [] => []
  | x :: xs =>
    if ((xs.length + 1 : Nat) : Int) > maxE ∧ maxE > 0 then evict_old maxE xs else x :: xs

/-- src/ph.py _cache_set: purge, insert or refresh at the most-recent end,
then evict least-recent entries while over capacity. -/
def cache_set {V : Type _} (ttl maxE now : Int) (key : String) (v : V)
    (c : List (String × Int × V)) : List (String × Int × V) :=
  if ttl ≤ 0 then c
  else
    let c1 := purge_expired ttl now c
    evict_old maxE (c1.filter (fun e => decide (e.1 ≠ key)) ++ [(key, now, v)])

/-- src/ph.py consultar_y_transformar_masiva with the token already
obtained: cache check, upstream lookup, transform, cache fill.  The
RuntimeError raised when the upstream returns no usable record is the
error result. -/
def consultar_y_transformar_masiva (env : Env) (ttl maxE now : Int) (token : String) (ida : Int)
    (cache : List (String × Int × List (String × PyVal))) :
    Except String (List (String × PyVal)) × List (String × Int × List (String × PyVal)) :=
  let key := toString ida
  match cache_get ttl now key cache with
  | (some cached, c1) => (.ok cached, c1)
  | (none, c1) =>
    match consulta_masiva_por_id env token ida with
    | none => (.error "Consulta_Masiva_Datos did not return data", c1)
    | some record =>
      if record.isEmpty then (.error "Consulta_Masiva_Datos did not return data", c1)
      else
        let data := transformar_desde_masiva record
        (.ok data, cache_set ttl maxE now key data c1)

end Ph

namespace Main

/-- Enrichment step of the api_cliente endpoint (src/main.py): given the
transformed upstream record, the optional sheet match and the optional
available credential, produce the response dict.  The credential lookup is
only performed when no match was found; passing it as a parameter, the
match branch must therefore not depend on it. -/
def api_cliente_enrich (data : List (String × Ph.PyVal)) (mtch : Option Tv.MatchResult)
    (disp : Option Tv.AvailableCredential) (alta_url : String) : List (String × Ph.PyVal) :=
  let d1 := dinsert "ya_tiene_usuario" (Ph.PyVal.b mtch.isSome) data
  let d2 := dinsert "abonado_sheet" (Ph.PyVal.s ((mtch.map (fun m => m.abonado)).getD "")) d1
  let d3 := dinsert "usuario_sheet" (Ph.PyVal.s ((mtch.map (fun m => m.usuario)).getD "")) d2
  let d4 := dinsert "cic_sheet" (Ph.PyVal.s ((mtch.map (fun m => m.cic)).getD "")) d3
  let d5 := dinsert "AltaURL" (Ph.PyVal.s alta_url) d4
  let d6 := dinsert "UsuarioPropuesto" (Ph.PyVal.s "") d5
  let d7 := dinsert "CICPropuesto" (Ph.PyVal.s "") d6
  if mtch.isSome then d7
  else
    match disp with
    | none => d7
    | some dsp =>
      dinsert "fila_propuesta" (Ph.PyVal.i dsp.row_index)
        (dinsert "CICPropuesto" (Ph.PyVal.s dsp.cic)
          (dinsert "UsuarioPropuesto" (Ph.PyVal.s dsp.usuario) d7))

end Main

/- Heap model of Python object identity, used for the copy-semantics
claim: dict values live at addresses in a store, dict(x) allocates a fresh
top node sharing the field values, copy.deepcopy(x) allocates a fresh node
for every reachable dict (modelled with a recursion-depth fuel, sufficient
for any acyclic value), and d[k] = v mutates one node in place. -/

namespace Heap

inductive HVal where
  | str (s : String)
  | ref (a : Nat)
deriving DecidableEq

abbrev Obj := List (String × HVal)

structure Store where
  heap : List (Nat × Obj)
  next : Nat

def heapGet (st : Store) (a : Nat) : Option Obj := alookup a st.heap

def allocObj (o : Obj) (st : Store) : Nat × Store :=
  (st.next, ⟨st.heap ++ [(st.next, o)], st.next + 1⟩)

/-- Python d[k] = v on the dict at address a. -/
def mutateField (a : Nat) (k : String) (v : HVal) (st : Store) : Store :=
  ⟨st.heap.map (fun p => if p.1 = a then (p.1, dinsert k v p.2) else p), st.next⟩

/-- Pure structural view of a value, used both to build literal test values
and to observe results. -/
inductive PyTree where
  | leaf (s : String)
  | node (fs : List (String × PyTree))

/-- Field access on a structural value. -/
def treeGet (k : String) : PyTree → Option PyTree
  | .leaf _ => none
  | .node fs => alookup k fs

/-- Python dict(x): a fresh top-level node sharing the field values of x;
fails when x is not a live dict reference. -/
def shallowCopy (v : HVal) (st : Store) : Option (HVal × Store) :=
  match v with
  | .str _ => none
  | .ref a =>
    match heapGet st a with
    | none => none
    | some o =>
      match allocObj o st with
      | (b, st') => some (.ref b, st')

/-- Copy the fields of an object left to right, threading the store, with
the value-copying function given as an argument. -/
def copyObjWith (f : HVal → Store → Option (HVal × Store)) : Obj → Store → Option (Obj × Store)
  | [], st => some ([], st)
  | (k, w) :: rest, st =>
    match f w st with
    | none => none
    | some (w', st') =>
      match copyObjWith f rest st' with
      | none => none
      | some (o', st'') => some ((k, w') :: o', st'')

/-- Python copy.deepcopy(x) on acyclic values, with fuel bounding the
recursion depth (memoisation of cyclic values is not modelled). -/
def deepCopy : Nat → HVal → Store → Option (HVal × Store)
  | _, .str s, st => some (.str s, st)
  | 0, .ref _, _ => none
  | fuel + 1, .ref a, st =>
    match heapGet st a with
    | none => none
    | some o =>
      match copyObjWith (fun w st' => deepCopy fuel w st') o st with
      | none => none
      | some (o', st') =>
        match allocObj o' st' with
        | (b, st'') => some (.ref b, st'')

/-- Read the fields of an object into structural values, with the
value-reading function given as an argument. -/
def readObjWith (f : HVal → Option PyTree) : Obj → Option (List (String × PyTree))
  | [] => some []
  | (k, w) :: rest =>
    match f w with
    | none => none
    | some t =>
      match readObjWith f rest with
      | none => none
      | some ts => some ((k, t) :: ts)

/-- Structural reading of a value, with fuel bounding the depth. -/
def readVal : Nat → HVal → Store → Option PyTree
  | _, .str s, _ => some (.leaf s)
  | 0, .ref _, _ => none
  | fuel + 1, .ref a, st =>
    match heapGet st a with
    | none => none
    | some o =>
      match readObjWith (fun w => readVal fuel w st) o with
      | none => none
      | some ts => some (.node ts)

/-- Heap version of the ph cache set: the stored value is dict(value). -/
def phSetH (ttl maxE now : Int) (key : String) (v : HVal)
    (c : List (String × Int × HVal)) (st : Store) :
    Option (List (String × Int × HVal) × Store) :=
  if ttl ≤ 0 then some (c, st)
  else
    let c1 := Ph.purge_expired ttl now c
    match shallowCopy v st with
    | none => none
    | some (v', st') =>
      some (Ph.evict_old maxE (c1.filter (fun e => decide (e.1 ≠ key)) ++ [(key, now, v')]), st')

/-- Heap version of the ph cache get: the returned value is dict(stored). -/
def phGetH (ttl now : Int) (key : String) (c : List (String × Int × HVal)) (st : Store) :
    Option (Option HVal × List (String × Int × HVal) × Store) :=
  if ttl ≤ 0 then some (none, c, st)
  else
    let c1 := Ph.purge_expired ttl now c
    match alookup key c1 with
    | none => some (none, c1, st)
    | some (ts, v) =>
      match shallowCopy v st with
      | none => none
      | some (v', st') =>
        some (some v', c1.filter (fun e => decide (e.1 ≠ key)) ++ [(key, ts, v)], st')

/-- Heap version of the tv cache set: the stored value is deepcopy(value). -/
def tvSetH (fuel : Nat) (ttl now : Int) (key : String) (v : HVal)
    (c : List (String × Int × HVal)) (st : Store) :
    Option (List (String × Int × HVal) × Store) :=
  if ttl ≤ 0 then some (c, st)
  else
    match deepCopy fuel v st with
    | none => none
    | some (v', st') => some (dinsert key (now, v') c, st')

/-- Heap version of the tv cache get: the returned value is
deepcopy(stored). -/
def tvGetH (fuel : Nat) (ttl now : Int) (key : String)
    (c : List (String × Int × HVal)) (st : Store) :
    Option (Option HVal × List (String × Int × HVal) × Store) :=
  if ttl ≤ 0 then some (none, c, st)
  else
    match alookup key c with
    | none => some (none, c, st)
    | some (ts, v) =>
      if now - ts > ttl then some (none, c.filter (fun e => decide (e.1 ≠ key)), st)
      else
        match deepCopy fuel v st with
        | none => none
        | some (v', st') => some (some v', c, st')

/-- Well-formed store: all bound addresses and all references stored in the
heap lie below the allocation counter. -/
def WF (st : Store) : Prop :=
  ∀ p ∈ st.heap, p.1 < st.next ∧ ∀ q ∈ p.2, ∀ b, q.2 = HVal.ref b → b < st.next

/-- Addresses reachable from a value by following references through the
heap. -/
inductive Reaches (st : Store) : HVal → Nat → Prop where
  | here (a : Nat) : Reaches st (.ref a) a
  | step (a b : Nat) (o : Obj) (k : String) (w : HVal) :
      heapGet st a = some o → (k, w) ∈ o → Reaches st w b → Reaches st (.ref a) b

/-- All references of a value lie below n. -/
def ValBelow (n : Nat) (v : HVal) : Prop := ∀ b, v = HVal.ref b → b < n

/-- All references of a value lie at or above n. -/
def ValAtLeast (n : Nat) (v : HVal) : Prop := ∀ b, v = HVal.ref b → n ≤ b

/-- A heap fragment bound entirely in the region at or above n and holding
only references into that region. -/
def ExtFresh (n : Nat) (ext : List (Nat × Obj)) : Prop :=
  ∀ p ∈ ext, n ≤ p.1 ∧ ∀ q ∈ p.2, ValAtLeast n q.2

/-- Postcondition of a structure-preserving copy of a value into fresh
storage: the allocation counter grows, well-formedness is kept, the heap
is only extended with fresh self-contained objects, the resulting root
reference is fresh, and the copy reads back structurally equal to the
original at every depth. -/
def CopyVal (st : Store) (v v2 : HVal) (st2 : Store) : Prop :=
  st.next ≤ st2.next ∧ WF st2 ∧
  (∃ ext, st2.heap = st.heap ++ ext ∧ ExtFresh st.next ext) ∧
  (∀ b, v2 = HVal.ref b → st.next ≤ b ∧ b < st2.next) ∧
  (∀ g, readVal g v2 st2 = readVal g v st)

/-- Postcondition of a structure-preserving copy of the fields of an
object, as for CopyVal. -/
def CopyObj (st : Store) (o o2 : Obj) (st2 : Store) : Prop :=
  st.next ≤ st2.next ∧ WF st2 ∧
  (∃ ext, st2.heap = st.heap ++ ext ∧ ExtFresh st.next ext) ∧
  (∀ q ∈ o2, ∀ b, q.2 = HVal.ref b → st.next ≤ b ∧ b < st2.next) ∧
  (∀ g, readObjWith (fun w => readVal g w st2) o2
      = readObjWith (fun w => readVal g w st) o)

end Heap

/- Claim-side reference definitions, written from the wording of the
specification rather than from the source, for the refinement claims. -/

namespace Ref

/-- Request negotiation as the spec words it: the three transport variants
in sequence, stopping at the first success. -/
def req_negotiate (env : Ph.Env) (p : Ph.Payload) : Option JVal :=
  [Ph.Transport.post_json, Ph.Transport.post_form, Ph.Transport.get_query].findSome? (env p)

/-- Upstream lookup exactly as the claim words it: for each shape that
returns (truthy) data, prefer the record whose own identifier matches,
else the first record; no other filtering. -/
def lookup_literal (env : Ph.Env) (token : String) (ida : Int) :
    Option (List (String × JVal)) :=
  (Ph.payloads_for token ida).findSome? (fun p =>
    match req_negotiate env p with
    | none => none
    | some data =>
      if jTruthy data then
        let recs := Ph.iter_records data
        (recs.find? (fun r => decide (Ph.rec_id r = toString ida))).orElse (fun _ => recs.head?)
      else none)

/-- Upstream lookup as amended: a dict response carrying a code field whose
string value is neither 200 nor OK is skipped like an empty response. -/
def lookup_amended (env : Ph.Env) (token : String) (ida : Int) :
    Option (List (String × JVal)) :=
  (Ph.payloads_for token ida).findSome? (fun p =>
    match req_negotiate env p with
    | none => none
    | some data =>
      if jTruthy data && !Ph.bad_code data then
        let recs := Ph.iter_records data
        (recs.find? (fun r => decide (Ph.rec_id r = toString ida))).orElse (fun _ => recs.head?)
      else none)

/-- Header-row choice as the claim words it: the first of the first five
rows containing a CIC cell, otherwise the earliest row among the first
five with the most non-empty cells. -/
def headerIndex (values : List (List String)) : Nat :=
  let first5 := values.take 5
  match first5.findIdx? Tv.rowHasCIC with
  | some i => i
  | none =>
    let counts := first5.map Tv.countNonempty
    counts.findIdx (fun n => decide (n = counts.foldr max 0))

/-- Header naming as the claim words it: blank cells become synthetic
col_ names, and the k-th later occurrence of an already-seen base name is
suffixed with the occurrence count. -/
def headerNamesAux (prior : List String) : List String → Nat → List String
  | [], _ => []
  | h :: rest, j =>
    let base := Tv.baseName h j
    (if prior.count base = 0 then base else base ++ "_" ++ toString (prior.count base + 1))
      :: headerNamesAux (prior ++ [base]) rest (j + 1)

def headerNames (headerRaw : List String) : List String := headerNamesAux [] headerRaw 0

/-- Record derivation as the claim words it: pair the derived names with
the row padded by empty strings, a later duplicate name overwriting an
earlier one. -/
def rowRecord (headers : List String) (row : List String) : Tv.Rec :=
  (headers.zip ((row.map Tv.norm) ++ List.replicate (headers.length - row.length) "")).foldl
    (fun acc p => dinsert p.1 p.2 acc) []

def loadRecords (values : List (List String)) : List Tv.Rec :=
  match values with
  | [] => []
  | _ :: _ =>
    let hi := headerIndex values
    let headers := headerNames (values.getD hi [])
    ((values.drop (hi + 1)).filter (fun row => !row.all (fun c => decide (Tv.norm c = "")))).map
      (rowRecord headers)

/-- Column location as the claim words it: exact collapsed-key match over
the first row, then prefix match, as an optional index. -/
def findCol (headers : List String) (name : String) : Option Nat :=
  match headers.findIdx? (fun h => decide (Tv.normkey h = Tv.normkey name)) with
  | some i => some i
  | none => headers.findIdx? (fun h => strStartsWith (Tv.normkey h) (Tv.normkey name))

/-- Credential allocation as the claim words it: absent unless all three
columns are located in the first row; otherwise the first data row whose
Registrado cell is a negative marker and whose Usuario-or-CIC cell is
non-empty, with the 1-based grid row number. -/
def findAvailable (values : List (List String)) : Option Tv.AvailableCredential :=
  match values with
  | [] => none
  | headers :: rows =>
    match findCol headers "CIC", findCol headers "Usuario", findCol headers "Registrado" with
    | some ic, some iu, some ir =>
      rows.enum.findSome? (fun p =>
        let reg := strToLower (strTrim (p.2.getD ir ""))
        if (reg = "no" || reg = "n" || reg = "false" || reg = "0")
            && (decide (strTrim (p.2.getD iu "") ≠ "") || decide (strTrim (p.2.getD ic "") ≠ "")) then
          some ⟨strTrim (p.2.getD iu ""), strTrim (p.2.getD ic ""), p.1 + 2⟩
        else none)
    | _, _, _ => none

end Ref

/- Concrete inputs used by examples, counterexamples and witnesses. -/

/-- Example grid of the header-discovery test property. -/
def exampleGrid7 : List (List String) :=
  [["", "", ""], ["Title"], ["ID", "Name", "CIC", "Registrado"], ["1", "Ana", "C1", "no"]]

/-- Example grid of the findAvailableCredential test property. -/
def exampleGrid8 : List (List String) :=
  [["ID", "Usuario", "CIC", "Registrado"], ["1", "u1", "c1", "si"], ["2", "u2", "c2", "no"]]

/-- Grid whose derived header names collide: the third header cell equals
the synthesized name of the second. -/
def dupHeaderGrid : List (List String) := [["A", "A", "A_2"], ["x", "y", "z"]]

/-- Upstream environment answering only the first payload shape over
POST-JSON, with a dict carrying an error code. -/
def envCodeErr : Ph.Env := fun p t =>
  match t with
  | Ph.Transport.post_json =>
    if (alookup "ID_Desde" p).isSome then some (JVal.obj [("code", JVal.s "500")]) else none
  | _ => none

/-- Upstream environment answering only the second payload shape over
POST-JSON, with a list containing one record for id 7. -/
def envGood : Ph.Env := fun p t =>
  match t with
  | Ph.Transport.post_json =>
    if (alookup "Id_Desde" p).isSome then
      some (JVal.arr [JVal.obj [("ID", JVal.s "7"), ("RS", JVal.s "Cliente Siete")]])
    else none
  | _ => none

/-- A live nested Python value, the inner dict at address 0 holding field b,
the outer dict at address 1 holding the inner one under field a. -/
def leakStore : Heap.Store :=
  ⟨[(0, [("b", Heap.HVal.str "1")]), (1, [("a", Heap.HVal.ref 0)])], 2⟩

/-- A live flat Python dict at address 0 with one string field. -/
def flatStore : Heap.Store := ⟨[(0, [("x", Heap.HVal.str "1")])], 1⟩

/- Cache operation sequences, for the size-invariant claim. -/

inductive CacheOp (V : Type _) where
  | get (now : Int) (key : String)
  | set (now : Int) (key : String) (v : V)

def Ph.applyOp {V : Type _} (ttl maxE : Int) (c : List (String × Int × V)) :
    CacheOp V → List (String × Int × V)
  | CacheOp.get now key => (Ph.cache_get ttl now key c).2
  | CacheOp.set now key v => Ph.cache_set ttl maxE now key v c

def Ph.applyOps {V : Type _} (ttl maxE : Int) (ops : List (CacheOp V))
    (c : List (String × Int × V)) : List (String × Int × V) :=
  ops.foldl (Ph.applyOp ttl maxE) c

/-- Rows on which the empty-signature query matches: a discoverable name
column whose cell has the empty token signature. -/
def Tv.emptyNameRow (row : Tv.Rec) : Bool :=
  match Tv.find_key row Tv.nameCandidates with
  | none => false
  | some k => decide (Tv.name_signature ((alookup k row).getD "") = 0)

/-- Running best-index loop extracted from the header selection, over the
integer cell counts. -/
def runArgmax (idx hi : Nat) (best : Int) : List Int → Nat
  | [] => hi
  | c :: rest => if c > best then runArgmax (idx + 1) idx c rest else runArgmax (idx + 1) hi best rest

/- Shared lemmas about the dict model. -/

theorem alookup_dinsert_self {κ α : Type _} [DecidableEq κ] (k : κ) (v : α) (l : List (κ × α)) :
    alookup k (dinsert k v l) = some v := by
  induction l with
  | nil => simp [dinsert, alookup]
  | cons p rest ih =>
    by_cases h : p.1 = k
    · simp [dinsert, alookup, h]
    · simp [dinsert, alookup, h, ih]

theorem alookup_dinsert_of_ne {κ α : Type _} [DecidableEq κ] {k k' : κ} (h : k ≠ k')
    (v : α) (l : List (κ × α)) : alookup k' (dinsert k v l) = alookup k' l := by
  induction l with
  | nil => simp [dinsert, alookup, h]
  | cons p rest ih =>
    by_cases hp : p.1 = k
    · simp [dinsert, alookup, hp, h]
    · simp only [dinsert, alookup, if_neg hp]
      by_cases hp' : p.1 = k'
      · simp [alookup, hp']
      · simp [alookup, hp', ih]

theorem alookup_mem {κ α : Type _} [DecidableEq κ] {k : κ} {x : α} :
    ∀ {l : List (κ × α)}, alookup k l = some x → (k, x) ∈ l := by
  intro l
  induction l with
  | nil => simp [alookup]
  | cons p rest ih =>
    intro h
    by_cases hp : p.1 = k
    · simp only [alookup, if_pos hp] at h
      cases h
      cases p
      subst hp
      exact List.mem_cons_self _ _
    · simp only [alookup, if_neg hp] at h
      exact List.mem_cons_of_mem _ (ih h)

/-- Claim C4: with a non-positive TTL both caches are fully disabled; get
always misses and set leaves the stored state unchanged, in ph and in tv
alike. -/
theorem c4_ttl_nonpos_disables_cache :
    ∀ ttl : Int, ttl ≤ 0 →
      ∀ (V : Type) (now maxE : Int) (key : String) (v : V) (c : List (String × Int × V)),
        Ph.cache_get ttl now key c = (none, c)
        ∧ Ph.cache_set ttl maxE now key v c = c
        ∧ Tv.cache_get ttl now key c = (none, c)
        ∧ Tv.cache_set ttl now key v c = c := by
  intro ttl h V now maxE key v c
  refine ⟨?_, ?_, ?_, ?_⟩ <;>
    simp [Ph.cache_get, Ph.cache_set, Tv.cache_get, Tv.cache_set, h]

/-- Witness for C4 at a concrete disabled cache. -/
theorem c4_ttl_nonpos_disables_cache_witness :
    Ph.cache_get 0 5 "k" [("a", 1, 7)] = (none, [("a", 1, 7)])
    ∧ Ph.cache_set 0 4 5 "k" 9 [("a", 1, 7)] = [("a", 1, 7)]
    ∧ Tv.cache_get 0 5 "k" [("a", 1, 7)] = (none, [("a", 1, 7)])
    ∧ Tv.cache_set 0 5 "k" 9 [("a", 1, 7)] = [("a", 1, 7)] :=
  c4_ttl_nonpos_disables_cache 0 (by decide) Nat 5 4 "k" 9 [("a", 1, 7)]

/- Lemmas about token runs, for the signature claim. -/

theorem tokenRunsAux_append_nontok (sep : Char) (hsep : isSigTokChar sep = false)
    (a b : List Char) : ∀ cur, tokenRunsAux (a ++ sep :: b) cur = tokenRunsAux a cur ++ tokenRuns b := by
  induction a with
  | nil =>
    intro cur
    by_cases hc : cur = []
    · simp [tokenRunsAux, hsep, hc, tokenRuns]
    · simp [tokenRunsAux, hsep, hc, tokenRuns]
  | cons c a ih =>
    intro cur
    by_cases ht : isSigTokChar c
    · simp [tokenRunsAux, ht, ih]
    · by_cases hc : cur = []
      · simp [tokenRunsAux, ht, hc, ih]
      · simp [tokenRunsAux, ht, hc, ih]

theorem nameTokens_append_space (x y : String) :
    Tv.nameTokens (x ++ " " ++ y) = Tv.nameTokens x ++ Tv.nameTokens y := by
  have hx : (x ++ " " ++ y).toList = x.toList ++ ' ' :: y.toList := by
    simp [String.toList, String.data_append]
  unfold Tv.nameTokens
  rw [hx]
  simp only [List.map_append, List.map_cons]
  have hsp : foldUpper ' ' = ' ' := by decide
  rw [hsp]
  exact tokenRunsAux_append_nontok ' ' (by decide) _ _ []

theorem name_signature_joinSpace (l : List String) :
    Tv.name_signature (joinSpace l) = (l.map Tv.name_signature).sum := by
  induction l with
  | nil => simp [joinSpace, Tv.name_signature, Tv.nameTokens, tokenRuns, tokenRunsAux]
  | cons x xs ih =>
    cases xs with
    | nil => simp [joinSpace, Tv.name_signature]
    | cons y ys =>
      have : joinSpace (x :: y :: ys) = x ++ " " ++ joinSpace (y :: ys) := rfl
      rw [this]
      simp only [List.map_cons, List.sum_cons]
      rw [Tv.name_signature, nameTokens_append_space]
      rw [← Multiset.coe_add]
      rw [Tv.name_signature] at ih ⊢
      rw [ih]
      simp [List.sum_cons]

/-- Claim C2: two names have equal signatures exactly when their token
multisets (uppercase alphanumeric runs after accent folding) are equal;
the comparison tolerates reordering of whole words and is sensitive to
extra or altered tokens, as the two concrete examples show. -/
theorem c2_token_signature :
    (∀ a b : String, Tv.name_signature a = Tv.name_signature b ↔ (Tv.nameTokens a).Perm (Tv.nameTokens b))
    ∧ (∀ xs ys : List String, xs.Perm ys →
        Tv.name_signature (joinSpace xs) = Tv.name_signature (joinSpace ys))
    ∧ Tv.name_signature "Juan García" = Tv.name_signature "GARCIA, Juan"
    ∧ Tv.name_signature "Juan García" ≠ Tv.name_signature "Juan Garcias" := by
  refine ⟨?_, ?_, ?_, ?_⟩
  · intro a b
    exact Multiset.coe_eq_coe
  · intro xs ys hperm
    rw [name_signature_joinSpace, name_signature_joinSpace]
    exact List.Perm.sum_eq (hperm.map _)
  · decide
  · decide

/-- Witness for C2: a concrete word permutation together with the two
example names. -/
theorem c2_token_signature_witness :
    Tv.name_signature (joinSpace ["Juan", "García"]) = Tv.name_signature (joinSpace ["García", "Juan"])
    ∧ Tv.name_signature "Juan García" = Tv.name_signature "GARCIA, Juan" :=
  ⟨c2_token_signature.2.1 ["Juan", "García"] ["García", "Juan"] (by decide),
   c2_token_signature.2.2.1⟩

theorem alookup_dinsert {κ α : Type _} [DecidableEq κ] (k k' : κ) (v : α) (l : List (κ × α)) :
    alookup k' (dinsert k v l) = if k = k' then some v else alookup k' l := by
  by_cases h : k = k'
  · subst h
    simp [alookup_dinsert_self]
  · simp [h, alookup_dinsert_of_ne h]

/-- Claim C9: one reconciliation response never carries both a sheet match
and a proposed credential; the proposal fields stay empty whenever a match
was found, the response does not depend on the credential lookup in that
case, and the match fields are empty whenever no match was found. -/
theorem c9_match_and_proposal_exclusive :
    ∀ (data : List (String × Ph.PyVal)) (mtch : Option Tv.MatchResult)
      (disp : Option Tv.AvailableCredential) (alta : String),
      alookup "ya_tiene_usuario" (Main.api_cliente_enrich data mtch disp alta)
          = some (Ph.PyVal.b mtch.isSome)
      ∧ (mtch.isSome = true →
          alookup "UsuarioPropuesto" (Main.api_cliente_enrich data mtch disp alta) = some (Ph.PyVal.s "")
          ∧ alookup "CICPropuesto" (Main.api_cliente_enrich data mtch disp alta) = some (Ph.PyVal.s "")
          ∧ ∀ disp', Main.api_cliente_enrich data mtch disp alta = Main.api_cliente_enrich data mtch disp' alta)
      ∧ (mtch = none →
          alookup "abonado_sheet" (Main.api_cliente_enrich data mtch disp alta) = some (Ph.PyVal.s "")
          ∧ alookup "usuario_sheet" (Main.api_cliente_enrich data mtch disp alta) = some (Ph.PyVal.s "")
          ∧ alookup "cic_sheet" (Main.api_cliente_enrich data mtch disp alta) = some (Ph.PyVal.s "")) := by
  intro data mtch disp alta
  cases mtch with
  | some m =>
    refine ⟨?_, fun _ => ⟨?_, ?_, fun disp' => ?_⟩, fun hn => by cases hn⟩ <;>
      simp [Main.api_cliente_enrich, alookup_dinsert]
  | none =>
    refine ⟨?_, ?_, ?_⟩
    · cases disp <;> simp [Main.api_cliente_enrich, alookup_dinsert]
    · intro hs
      simp at hs
    · intro _
      refine ⟨?_, ?_, ?_⟩ <;> cases disp <;> simp [Main.api_cliente_enrich, alookup_dinsert]

/-- Witness for C9 at a concrete record, match and credential. -/
theorem c9_match_and_proposal_exclusive_witness :
    alookup "UsuarioPropuesto"
        (Main.api_cliente_enrich [] (some ⟨"77", [], "c9", "u9"⟩) (some ⟨"u2", "c2", 3⟩) "x")
      = some (Ph.PyVal.s "")
    ∧ alookup "abonado_sheet" (Main.api_cliente_enrich [] none (some ⟨"u2", "c2", 3⟩) "x")
      = some (Ph.PyVal.s "") :=
  ⟨((c9_match_and_proposal_exclusive [] (some ⟨"77", [], "c9", "u9"⟩) (some ⟨"u2", "c2", 3⟩) "x").2.1
      (by decide)).1,
   ((c9_match_and_proposal_exclusive [] none (some ⟨"u2", "c2", 3⟩) "x").2.2 rfl).1⟩

/-- Claim C10: when the query name has the empty token signature, the
name match succeeds on the first row having a discoverable name column
whose cell also has the empty signature, and in particular does not
return absent when such a row exists. -/
theorem c10_empty_signature_matches :
    ∀ (rows : List Tv.Rec) (q : String), Tv.name_signature q = 0 →
      Tv.encontrar_abonado_por_nombre rows q = (rows.find? Tv.emptyNameRow).map Tv.buildMatch
      ∧ ((∃ r ∈ rows, Tv.emptyNameRow r) → (Tv.encontrar_abonado_por_nombre rows q).isSome) := by
  intro rows q h
  have main : Tv.encontrar_abonado_por_nombre rows q = (rows.find? Tv.emptyNameRow).map Tv.buildMatch := by
    induction rows with
    | nil => rfl
    | cons r rest ih =>
      simp only [Tv.encontrar_abonado_por_nombre, h] at ih ⊢
      rw [List.findSome?_cons, List.find?_cons]
      cases hk : Tv.find_key r Tv.nameCandidates with
      | none =>
        have hempty : Tv.emptyNameRow r = false := by simp [Tv.emptyNameRow, hk]
        simp [hk, hempty, ih]
      | some k =>
        by_cases hsig : Tv.name_signature ((alookup k r).getD "") = 0
        · have hempty : Tv.emptyNameRow r = true := by simp [Tv.emptyNameRow, hk, hsig]
          simp [hk, hsig, hempty]
        · have hempty : Tv.emptyNameRow r = false := by simp [Tv.emptyNameRow, hk, hsig]
          simp [hk, hsig, hempty, ih]
  refine ⟨main, fun hex => ?_⟩
  rw [main]
  obtain ⟨r, hr, hpred⟩ := hex
  obtain ⟨x, hx⟩ := (List.find?_isSome).2 ⟨r, hr, hpred⟩ |> Option.isSome_iff_exists.1
  simp [hx]

/-- Witness for C10: the empty query against a row whose name cell has no
alphanumeric characters. -/
theorem c10_empty_signature_matches_witness :
    Tv.name_signature "" = 0
    ∧ (Tv.encontrar_abonado_por_nombre [[("Nombre", "-")]] "").isSome :=
  ⟨by decide,
   (c10_empty_signature_matches [[("Nombre", "-")]] "" (by decide)).2
     ⟨[("Nombre", "-")], by decide, by decide⟩⟩

/- Lemmas about the ph cache internals. -/

theorem purge_mem {V : Type _} {ttl now : Int} (h : 0 < ttl) {e : String × Int × V}
    {c : List (String × Int × V)} (he : e ∈ Ph.purge_expired ttl now c) :
    e ∈ c ∧ now - e.2.1 ≤ ttl := by
  rw [Ph.purge_expired, if_neg (not_le.2 h)] at he
  have := List.mem_filter.1 he
  exact ⟨this.1, by simpa using this.2⟩

theorem evict_old_suffix {α : Type _} (maxE : Int) (l : List α) :
    ∃ pre, l = pre ++ Ph.evict_old maxE l := by
  induction l with
  | nil => exact ⟨[], rfl⟩
  | cons x xs ih =>
    by_cases h : ((xs.length + 1 : Nat) : Int) > maxE ∧ maxE > 0
    · obtain ⟨pre, hp⟩ := ih
      refine ⟨x :: pre, ?_⟩
      rw [Ph.evict_old, if_pos h]
      simpa using hp
    · refine ⟨[], ?_⟩
      rw [Ph.evict_old, if_neg h]
      rfl

theorem evict_old_subset {α : Type _} {maxE : Int} {l : List α} {e : α}
    (he : e ∈ Ph.evict_old maxE l) : e ∈ l := by
  obtain ⟨pre, hp⟩ := evict_old_suffix maxE l
  rw [hp]
  exact List.mem_append_right _ he

theorem evict_old_length {α : Type _} {maxE : Int} (hm : 0 < maxE) (l : List α) :
    ((Ph.evict_old maxE l).length : Int) ≤ maxE := by
  induction l with
  | nil =>
    rw [Ph.evict_old]
    simpa using le_of_lt hm
  | cons x xs ih =>
    by_cases h : ((xs.length + 1 : Nat) : Int) > maxE ∧ maxE > 0
    · rw [Ph.evict_old, if_pos h]
      exact ih
    · rw [Ph.evict_old, if_neg h]
      have hA : ¬ (((xs.length + 1 : Nat) : Int) > maxE) := fun hgt => h ⟨hgt, hm⟩
      push_neg at hA
      simpa using hA

theorem mem_dinsert_of_ne {κ α : Type _} [DecidableEq κ] {e : κ × α} (k : κ) (v : α)
    {l : List (κ × α)} (he : e ∈ l) (hne : e.1 ≠ k) : e ∈ dinsert k v l := by
  induction l with
  | nil => cases he
  | cons p rest ih =>
    rcases List.mem_cons.1 he with h1 | h2
    · subst h1
      by_cases hp : e.1 = k
      · exact absurd hp hne
      · rw [dinsert, if_neg hp]
        exact List.mem_cons_self _ _
    · by_cases hp : p.1 = k
      · rw [dinsert, if_pos hp]
        exact List.mem_cons_of_mem _ h2
      · rw [dinsert, if_neg hp]
        exact List.mem_cons_of_mem _ (ih h2)

/-- Claim C5 (amended): on every get and set with a positive TTL the ph
cache purges all expired entries, for every key, before the access; the
tv cache only drops the accessed entry when it is found expired on get
(and never returns an expired value), while its set performs no purge at
all and leaves every other entry, expired or not, in place. -/
theorem c5_lazy_expiry_amended :
    ∀ (ttl now : Int), 0 < ttl →
      ∀ (V : Type) (key : String) (c : List (String × Int × V)),
        (∀ e ∈ (Ph.cache_get ttl now key c).2, now - e.2.1 ≤ ttl)
        ∧ (∀ (maxE : Int) (v : V), ∀ e ∈ Ph.cache_set ttl maxE now key v c, now - e.2.1 ≤ ttl)
        ∧ (∀ v : V, (Tv.cache_get ttl now key c).1 = some v →
            ∃ ts, alookup key c = some (ts, v) ∧ ¬ (now - ts > ttl))
        ∧ (∀ (ts : Int) (v : V), alookup key c = some (ts, v) → now - ts > ttl →
            Tv.cache_get ttl now key c = (none, c.filter (fun e => decide (e.1 ≠ key))))
        ∧ (∀ v : V, Tv.cache_set ttl now key v c = dinsert key (now, v) c)
        ∧ (∀ (v : V) (e : String × Int × V), e ∈ c → e.1 ≠ key →
            e ∈ Tv.cache_set ttl now key v c) := by
  intro ttl now ht V key c
  have htn : ¬ ttl ≤ 0 := not_le.2 ht
  refine ⟨?_, ?_, ?_, ?_, ?_, ?_⟩
  · intro e he
    rw [Ph.cache_get, if_neg htn] at he
    simp only at he
    cases halk : alookup key (Ph.purge_expired ttl now c) with
    | none =>
      rw [halk] at he
      exact (purge_mem ht he).2
    | some p =>
      rw [halk] at he
      rcases List.mem_append.1 he with h1 | h2
      · exact (purge_mem ht (List.mem_filter.1 h1).1).2
      · have hmem := alookup_mem halk
        rcases List.mem_singleton.1 h2 with rfl
        exact (purge_mem ht hmem).2
  · intro maxE v e he
    rw [Ph.cache_set, if_neg htn] at he
    have := evict_old_subset he
    rcases List.mem_append.1 this with h1 | h2
    · exact (purge_mem ht (List.mem_filter.1 h1).1).2
    · rcases List.mem_singleton.1 h2 with rfl
      simpa using le_of_lt ht
  · intro v hv
    rw [Tv.cache_get, if_neg htn] at hv
    cases halk : alookup key c with
    | none => rw [halk] at hv; cases hv
    | some p =>
      obtain ⟨ts0, v0⟩ := p
      rw [halk] at hv
      by_cases hexp : now - ts0 > ttl
      · simp [hexp] at hv
      · simp [hexp] at hv
        subst hv
        exact ⟨ts0, rfl, hexp⟩
  · intro ts v halk hexp
    rw [Tv.cache_get, if_neg htn, halk]
    simp [hexp]
  · intro v
    rw [Tv.cache_set, if_neg htn]
  · intro v e he hne
    rw [Tv.cache_set, if_neg htn]
    exact mem_dinsert_of_ne key (now, v) he hne

/-- Witness for C5 at a concrete cache state. -/
theorem c5_lazy_expiry_amended_witness :
    (∀ e ∈ Ph.cache_set 5 10 20 "k2" 9 [("k1", 0, 1), ("k2", 10, 2)], (20 : Int) - e.2.1 ≤ 5)
    ∧ Tv.cache_set 5 20 "k2" 9 [("k1", 0, 1), ("k2", 10, 2)]
        = dinsert "k2" (20, 9) [("k1", 0, 1), ("k2", 10, 2)] :=
  ⟨(c5_lazy_expiry_amended 5 20 (by decide) Nat "k2" [("k1", 0, 1), ("k2", 10, 2)]).2.1 10 9,
   (c5_lazy_expiry_amended 5 20 (by decide) Nat "k2" [("k1", 0, 1), ("k2", 10, 2)]).2.2.2.2.1 9⟩

/-- Counterexample for C5 as stated: a tv cache get leaves another,
already expired, entry in the store (with TTL 5, at time 20 the entry
k1 of age 20 remains stored after a get of k2). -/
theorem c5_counterexample :
    Tv.cache_get 5 20 "k2" [("k1", 0, 1), ("k2", 10, 2)] = ((none : Option Nat), [("k1", 0, 1)])
    ∧ (20 : Int) - 0 > 5 := by
  exact ⟨rfl, by decide⟩

theorem filter_ne_length_lt {V : Type _} {k : String} {x : Int × V} :
    ∀ {l : List (String × Int × V)}, (k, x) ∈ l →
      (l.filter (fun e => decide (e.1 ≠ k))).length < l.length := by
  intro l
  induction l with
  | nil => intro h; cases h
  | cons p rest ih =>
    intro h
    rcases List.mem_cons.1 h with h1 | h2
    · rw [← h1]
      simp only [List.filter_cons]
      have : (decide ((k, x).1 ≠ k)) = false := by simp
      rw [this]
      exact Nat.lt_succ_of_le (List.length_filter_le _ _)
    · by_cases hp : p.1 = k
      · have hd : (decide (p.1 ≠ k)) = false := by simp [hp]
        simp only [List.filter_cons, hd]
        exact Nat.lt_succ_of_le (List.length_filter_le _ _)
      · simp only [List.filter_cons]
        have : (decide (p.1 ≠ k)) = true := by simp [hp]
        rw [this]
        simpa using Nat.succ_lt_succ (ih h2)

theorem cache_get_length_le {V : Type _} (ttl now : Int) (key : String)
    (c : List (String × Int × V)) :
    (Ph.cache_get ttl now key c).2.length ≤ c.length := by
  by_cases h : ttl ≤ 0
  · rw [Ph.cache_get, if_pos h]
  · rw [Ph.cache_get, if_neg h]
    have hpur : (Ph.purge_expired ttl now c).length ≤ c.length := by
      rw [Ph.purge_expired, if_neg h]
      exact List.length_filter_le _ _
    cases halk : alookup key (Ph.purge_expired ttl now c) with
    | none =>
      simp only [halk]
      simpa using hpur
    | some p =>
      simp only [halk]
      have hmem := alookup_mem halk
      have := filter_ne_length_lt hmem
      simp only [List.length_append, List.length_cons, List.length_nil]
      omega

theorem cache_set_length_le {V : Type _} {ttl maxE : Int} (ht : 0 < ttl) (hm : 0 < maxE)
    (now : Int) (key : String) (v : V) (c : List (String × Int × V)) :
    ((Ph.cache_set ttl maxE now key v c).length : Int) ≤ maxE := by
  rw [Ph.cache_set, if_neg (not_le.2 ht)]
  exact evict_old_length hm _

/-- Claim C3: with positive TTL and capacity, the ph cache never exceeds
its capacity after any operation sequence; a set first purges, then puts
the key at the most-recent end and pops entries from the least-recent end
only, so that everything evicted precedes everything retained in recency
order; and a get hit moves the accessed key to the most-recent end. -/
theorem c3_lru_bounded :
    ∀ ttl maxE : Int, 0 < ttl → 0 < maxE →
      (∀ (V : Type) (ops : List (CacheOp V)),
        ((Ph.applyOps ttl maxE ops []).length : Int) ≤ maxE)
      ∧ (∀ (V : Type) (now : Int) (key : String) (v : V) (c : List (String × Int × V)),
          ((Ph.cache_set ttl maxE now key v c).length : Int) ≤ maxE)
      ∧ (∀ (V : Type) (now : Int) (key : String) (v : V) (c : List (String × Int × V)),
          ∃ evicted,
            (Ph.purge_expired ttl now c).filter (fun e => decide (e.1 ≠ key)) ++ [(key, now, v)]
              = evicted ++ Ph.cache_set ttl maxE now key v c)
      ∧ (∀ (V : Type) (now : Int) (key : String) (c : List (String × Int × V)) (ts : Int) (v : V),
          alookup key (Ph.purge_expired ttl now c) = some (ts, v) →
          Ph.cache_get ttl now key c
            = (some v, (Ph.purge_expired ttl now c).filter (fun e => decide (e.1 ≠ key)) ++ [(key, ts, v)])) := by
  intro ttl maxE ht hm
  refine ⟨?_, ?_, ?_, ?_⟩
  · intro V ops
    have step : ∀ (ops : List (CacheOp V)) (c : List (String × Int × V)),
        ((c.length : Int) ≤ maxE) → ((Ph.applyOps ttl maxE ops c).length : Int) ≤ maxE := by
      intro ops
      induction ops with
      | nil => intro c hc; exact hc
      | cons op rest ih =>
        intro c hc
        rw [Ph.applyOps, List.foldl_cons]
        cases op with
        | get now key =>
          refine ih _ ?_
          have := cache_get_length_le ttl now key c
          simp only [Ph.applyOp]
          omega
        | set now key v =>
          exact ih _ (cache_set_length_le ht hm now key v c)
    exact step ops [] (by simpa using le_of_lt hm)
  · intro V now key v c
    exact cache_set_length_le ht hm now key v c
  · intro V now key v c
    rw [Ph.cache_set, if_neg (not_le.2 ht)]
    exact evict_old_suffix maxE _
  · intro V now key c ts v halk
    rw [Ph.cache_get, if_neg (not_le.2 ht)]
    simp only [halk]

/-- Witness for C3 at a concrete operation sequence and a concrete hit. -/
theorem c3_lru_bounded_witness :
    ((Ph.applyOps 1 1 [CacheOp.set 0 "a" 5, CacheOp.set 0 "b" 6] ([] : List (String × Int × Nat))).length : Int) ≤ 1
    ∧ Ph.cache_get 1 0 "k" [("k", 0, 5)] = (some 5, [("k", 0, 5)]) :=
  ⟨(c3_lru_bounded 1 1 (by decide) (by decide)).1 Nat [CacheOp.set 0 "a" 5, CacheOp.set 0 "b" 6],
   (c3_lru_bounded 1 1 (by decide) (by decide)).2.2.2 Nat 0 "k" [("k", 0, 5)] 0 5 rfl⟩

theorem findSome?_congr {α β : Type _} {f g : α → Option β} :
    ∀ {l : List α}, (∀ x ∈ l, f x = g x) → l.findSome? f = l.findSome? g := by
  intro l
  induction l with
  | nil => intro _; rfl
  | cons x xs ih =>
    intro h
    rw [List.findSome?_cons, List.findSome?_cons, h x (List.mem_cons_self _ _)]
    cases g x with
    | none => exact ih (fun y hy => h y (List.mem_cons_of_mem _ hy))
    | some b => rfl

theorem find_col_idx_eq (headers : List String) (name : String) :
    Tv.find_col_idx headers name
      = match Ref.findCol headers name with
        | some i => (i : Int)
        | none => -1 := by
  rw [Tv.find_col_idx, Ref.findCol]
  cases h1 : headers.findIdx? (fun h => decide (Tv.normkey h = Tv.normkey name)) with
  | some i => rfl
  | none =>
    cases h2 : headers.findIdx? (fun h => strStartsWith (Tv.normkey h) (Tv.normkey name)) with
    | some i => rfl
    | none => rfl

theorem obtenerScan_eq_enumFrom (iu ic ir : Nat) :
    ∀ (rows : List (List String)) (n : Nat),
      Tv.obtenerScan iu ic ir rows n
        = (rows.enumFrom n).findSome? (fun p =>
            if (strToLower (strTrim (p.2.getD ir "")) = "no" || strToLower (strTrim (p.2.getD ir "")) = "n"
                || strToLower (strTrim (p.2.getD ir "")) = "false" || strToLower (strTrim (p.2.getD ir "")) = "0")
                && (decide (strTrim (p.2.getD iu "") ≠ "") || decide (strTrim (p.2.getD ic "") ≠ "")) then
              some ⟨strTrim (p.2.getD iu ""), strTrim (p.2.getD ic ""), p.1 + 1⟩
            else none) := by
  intro rows
  induction rows with
  | nil => intro n; rfl
  | cons row rest ih =>
    intro n
    rw [List.enumFrom_cons, List.findSome?_cons, Tv.obtenerScan]
    by_cases hb1 : ((decide (strToLower (strTrim (row.getD ir "")) = "no")
        || decide (strToLower (strTrim (row.getD ir "")) = "n")
        || decide (strToLower (strTrim (row.getD ir "")) = "false")
        || decide (strToLower (strTrim (row.getD ir "")) = "0")) = true)
    · by_cases hp2 : strTrim (row.getD iu "") ≠ "" ∨ strTrim (row.getD ic "") ≠ ""
      · have hd : (decide (strTrim (row.getD iu "") ≠ "") || decide (strTrim (row.getD ic "") ≠ "")) = true := by
          simp only [Bool.or_eq_true, decide_eq_true_eq]
          exact hp2
        have hc : ((decide (strToLower (strTrim (row.getD ir "")) = "no")
            || decide (strToLower (strTrim (row.getD ir "")) = "n")
            || decide (strToLower (strTrim (row.getD ir "")) = "false")
            || decide (strToLower (strTrim (row.getD ir "")) = "0"))
            && (decide (strTrim (row.getD iu "") ≠ "") || decide (strTrim (row.getD ic "") ≠ ""))) = true := by
          rw [hb1, hd]
          rfl
        rw [if_pos hb1, if_pos hp2, if_pos hc]
      · have hp2' := hp2
        push_neg at hp2'
        have hd : (decide (strTrim (row.getD iu "") ≠ "") || decide (strTrim (row.getD ic "") ≠ "")) = false := by
          rw [decide_eq_false (fun hne => hne hp2'.1), decide_eq_false (fun hne => hne hp2'.2)]
          rfl
        have hcn : ¬ (((decide (strToLower (strTrim (row.getD ir "")) = "no")
            || decide (strToLower (strTrim (row.getD ir "")) = "n")
            || decide (strToLower (strTrim (row.getD ir "")) = "false")
            || decide (strToLower (strTrim (row.getD ir "")) = "0"))
            && (decide (strTrim (row.getD iu "") ≠ "") || decide (strTrim (row.getD ic "") ≠ ""))) = true) := by
          rw [hd, Bool.and_false]
          simp
        rw [if_pos hb1, if_neg hp2, if_neg hcn]
        exact ih (n + 1)
    · have hcn : ¬ (((decide (strToLower (strTrim (row.getD ir "")) = "no")
          || decide (strToLower (strTrim (row.getD ir "")) = "n")
          || decide (strToLower (strTrim (row.getD ir "")) = "false")
          || decide (strToLower (strTrim (row.getD ir "")) = "0"))
          && (decide (strTrim (row.getD iu "") ≠ "") || decide (strTrim (row.getD ic "") ≠ ""))) = true) := by
        rw [Bool.not_eq_true] at hb1
        rw [hb1, Bool.false_and]
        simp
      rw [if_neg hb1, if_neg hcn]
      exact ih (n + 1)

theorem enumFrom_shift_findSome? {α β : Type _} (f : Nat × α → Option β) :
    ∀ (l : List α) (n m : Nat),
      (List.enumFrom (n + m) l).findSome? f
        = (List.enumFrom n l).findSome? (fun p => f (p.1 + m, p.2)) := by
  intro l
  induction l with
  | nil => intro n m; rfl
  | cons a l ih =>
    intro n m
    rw [List.enumFrom_cons, List.enumFrom_cons, List.findSome?_cons, List.findSome?_cons]
    cases hf : f (n + m, a) with
    | some b => rfl
    | none =>
      have harith : n + m + 1 = (n + 1) + m := by omega
      rw [harith]
      exact ih (n + 1) m

theorem enumFrom_findSome?_eq_enum {α β : Type _} (f : Nat × α → Option β) (l : List α) (m : Nat) :
    (List.enumFrom m l).findSome? f = l.enum.findSome? (fun p => f (p.1 + m, p.2)) := by
  have h := enumFrom_shift_findSome? f l 0 m
  simpa [List.enum] using h


/-- Claim C8: the first-available-credential scan behaves exactly as the
claim states it on every grid (absent unless the CIC, Usuario and
Registrado columns can be located in the first row by exact-then-prefix
collapsed-key match; otherwise the first data row, scanning in order,
whose Registrado cell is a negative marker and whose Usuario-or-CIC cell
is non-empty, with the 1-based grid row number), and it returns usuario
u2, cic c2, row 3 on the example grid. -/
theorem c8_find_available_credential :
    (∀ values : List (List String),
      Tv.obtener_usuario_cic_disponible values = Ref.findAvailable values)
    ∧ Tv.obtener_usuario_cic_disponible exampleGrid8
        = some { usuario := "u2", cic := "c2", row_index := 3 } := by
  constructor
  · intro values
    cases values with
    | nil => rfl
    | cons headers rows =>
      cases rows with
      | nil =>
        rw [Tv.obtener_usuario_cic_disponible, Ref.findAvailable]
        rw [if_pos (by rfl)]
        cases Ref.findCol headers "CIC" <;>
          cases Ref.findCol headers "Usuario" <;>
            cases Ref.findCol headers "Registrado" <;> rfl
      | cons r2 rest =>
        rw [Tv.obtener_usuario_cic_disponible, Ref.findAvailable]
        have hguard : ¬ ((List.isEmpty (headers :: r2 :: rest)
            || decide ((headers :: r2 :: rest).length < 2)) = true) := by
          simp
        rw [if_neg hguard]
        simp only [find_col_idx_eq, List.getD_cons_zero]
        by_cases hnone : Ref.findCol headers "CIC" = none ∨ Ref.findCol headers "Usuario" = none
            ∨ Ref.findCol headers "Registrado" = none
        · have hcond : (min (match Ref.findCol headers "CIC" with | some i => (i : Int) | none => -1)
              (min (match Ref.findCol headers "Usuario" with | some i => (i : Int) | none => -1)
                (match Ref.findCol headers "Registrado" with | some i => (i : Int) | none => -1)) < 0) := by
            rcases hnone with h | h | h
            · rw [h]
              simp only [min_lt_iff]
              left
              decide
            · rw [h]
              simp only [min_lt_iff]
              right
              left
              decide
            · rw [h]
              simp only [min_lt_iff]
              right
              right
              decide
          rw [if_pos hcond]
          rcases hnone with h | h | h
          · simp [h]
          · cases hc : Ref.findCol headers "CIC" <;> simp [hc, h]
          · cases hc : Ref.findCol headers "CIC" <;>
              cases hu : Ref.findCol headers "Usuario" <;> simp [hc, hu, h]
        · push_neg at hnone
          obtain ⟨h1, h2, h3⟩ := hnone
          obtain ⟨ic, hc⟩ := Option.ne_none_iff_exists'.1 h1
          obtain ⟨iu, hu⟩ := Option.ne_none_iff_exists'.1 h2
          obtain ⟨ir, hr⟩ := Option.ne_none_iff_exists'.1 h3
          simp only [hc, hu, hr]
          have hcond : ¬ (min (ic : Int) (min (iu : Int) (ir : Int)) < 0) := by
            rw [min_lt_iff, min_lt_iff]
            push_neg
            refine ⟨by omega, by omega, by omega⟩
          rw [if_neg hcond]
          simp only [Int.toNat_natCast]
          rw [obtenerScan_eq_enumFrom, enumFrom_findSome?_eq_enum]
          rfl
  · decide

theorem req_eq (env : Ph.Env) (p : Ph.Payload) :
    Ph.req_masiva env p = Ref.req_negotiate env p := by
  rw [Ph.req_masiva, Ref.req_negotiate]
  cases h1 : env p Ph.Transport.post_json with
  | some d => simp [List.findSome?_cons, h1]
  | none =>
    cases h2 : env p Ph.Transport.post_form with
    | some d => simp [List.findSome?_cons, h1, h2]
    | none =>
      cases h3 : env p Ph.Transport.get_query <;> simp [List.findSome?_cons, h1, h2, h3]

theorem consultaAux_eq (env : Ph.Env) (ida : Int) :
    ∀ ps : List Ph.Payload,
      Ph.consultaAux env ida ps
        = ps.findSome? (fun p =>
            match Ref.req_negotiate env p with
            | none => none
            | some data =>
              if jTruthy data && !Ph.bad_code data then
                (((Ph.iter_records data).find?
                    (fun r => decide (Ph.rec_id r = toString ida))).orElse
                  (fun _ => (Ph.iter_records data).head?))
              else none) := by
  intro ps
  induction ps with
  | nil => rfl
  | cons p rest ih =>
    rw [List.findSome?_cons, Ph.consultaAux]
    rw [show Ref.req_negotiate env p = Ph.req_masiva env p from (req_eq env p).symm]
    cases hr : Ph.req_masiva env p with
    | none => exact ih
    | some data =>
      by_cases hT : jTruthy data = true
      · by_cases hB : Ph.bad_code data = true
        · have hcond : (jTruthy data && !Ph.bad_code data) = false := by
            rw [hT, hB]
            rfl
          simp only [hT, hB, hcond, Bool.not_true, if_false, if_true, Bool.false_eq_true]
          exact ih
        · rw [Bool.not_eq_true] at hB
          have hcond : (jTruthy data && !Ph.bad_code data) = true := by
            rw [hT, hB]
            rfl
          simp only [hT, hB, hcond, Bool.not_false, if_true, if_false, Bool.false_eq_true]
          cases hf : (Ph.iter_records data).find? (fun r => decide (Ph.rec_id r = toString ida)) with
          | some rec => simp [Option.orElse, hf]
          | none =>
            cases hrecs : Ph.iter_records data with
            | nil => simp [Option.orElse, hf, hrecs, ih]
            | cons r t => simp [Option.orElse, hf, hrecs]
      · rw [Bool.not_eq_true] at hT
        have hcond : (jTruthy data && !Ph.bad_code data) = false := by
          rw [hT]
          rfl
        simp only [hT, hcond, Bool.not_false, if_true, Bool.false_eq_true, if_false]
        exact ih

/-- Claim C1 (amended): on a cache miss the lookup tries the four payload
shapes in order, each as POST-JSON then POST-form then GET-query stopping
at the first success, and for each shape whose response is truthy data
and is not a dict carrying an error code (a code field whose string value
is neither 200 nor OK), it returns the record whose own ID or IDA field
matches the requested id, else the first record of that response, moving
to the next shape when no record is extracted; when no shape yields a
usable record the caller fails with the no-data error. -/
theorem c1_upstream_negotiation_amended :
    (∀ (env : Ph.Env) (token : String) (ida : Int),
      Ph.consulta_masiva_por_id env token ida = Ref.lookup_amended env token ida)
    ∧ (∀ (env : Ph.Env) (ttl maxE now : Int) (token : String) (ida : Int) cache,
        (Ph.cache_get ttl now (toString ida) cache).1 = none →
        Ph.consulta_masiva_por_id env token ida = none →
        (Ph.consultar_y_transformar_masiva env ttl maxE now token ida cache).1
          = Except.error "Consulta_Masiva_Datos did not return data")
    ∧ (∀ (env : Ph.Env) (ttl maxE now : Int) (token : String) (ida : Int) cache r,
        (Ph.cache_get ttl now (toString ida) cache).1 = none →
        Ph.consulta_masiva_por_id env token ida = some r →
        r ≠ [] →
        (Ph.consultar_y_transformar_masiva env ttl maxE now token ida cache).1
          = Except.ok (Ph.transformar_desde_masiva r)) := by
  refine ⟨?_, ?_, ?_⟩
  · intro env token ida
    rw [Ph.consulta_masiva_por_id, Ref.lookup_amended]
    exact consultaAux_eq env ida (Ph.payloads_for token ida)
  · intro env ttl maxE now token ida cache hmiss hdata
    have hp : Ph.cache_get ttl now (toString ida) cache
        = (none, (Ph.cache_get ttl now (toString ida) cache).2) := Prod.ext hmiss rfl
    rw [Ph.consultar_y_transformar_masiva, hp, hdata]
  · intro env ttl maxE now token ida cache r hmiss hdata hne
    have hp : Ph.cache_get ttl now (toString ida) cache
        = (none, (Ph.cache_get ttl now (toString ida) cache).2) := Prod.ext hmiss rfl
    rw [Ph.consultar_y_transformar_masiva, hp, hdata]
    simp [hne]

/-- Witness for C1 at a concrete environment that answers the second
payload shape with one record for id 7. -/
theorem c1_upstream_negotiation_amended_witness :
    Ph.consulta_masiva_por_id envGood "tok" 7 = Ref.lookup_amended envGood "tok" 7
    ∧ (Ph.consultar_y_transformar_masiva envGood 1 10 0 "tok" 7 []).1
        = Except.ok (Ph.transformar_desde_masiva [("ID", JVal.s "7"), ("RS", JVal.s "Cliente Siete")]) :=
  ⟨c1_upstream_negotiation_amended.1 envGood "tok" 7,
   c1_upstream_negotiation_amended.2.2 envGood 1 10 0 "tok" 7 []
     [("ID", JVal.s "7"), ("RS", JVal.s "Cliente Siete")] rfl rfl (List.cons_ne_nil _ _)⟩

/-- Counterexample for C1 as stated: for an upstream that answers the
first shape with a dict carrying an error code, the claim says the first
record of that response is returned, but the code skips the response and,
with every other shape silent, the call fails with the no-data error. -/
theorem c1_counterexample :
    Ph.consulta_masiva_por_id envCodeErr "tok" 7 = none
    ∧ Ref.lookup_literal envCodeErr "tok" 7 = some [("code", JVal.s "500")]
    ∧ (Ph.consultar_y_transformar_masiva envCodeErr 1 10 0 "tok" 7 []).1
        = Except.error "Consulta_Masiva_Datos did not return data" :=
  ⟨rfl, rfl, rfl⟩

/- Lemmas for the header-row selection of load_data_from_sheet. -/

theorem findIdx_congr {α : Type _} {p q : α → Bool} :
    ∀ {l : List α}, (∀ x ∈ l, p x = q x) → l.findIdx p = l.findIdx q := by
  intro l
  induction l with
  | nil => intro _; rfl
  | cons x xs ih =>
    intro h
    rw [List.findIdx_cons, List.findIdx_cons, h x (List.mem_cons_self _ _)]
    cases q x with
    | true => rfl
    | false =>
      simp only [cond_false]
      rw [ih (fun y hy => h y (List.mem_cons_of_mem _ hy))]

theorem le_foldr_max : ∀ {l : List Nat} {n : Nat}, n ∈ l → n ≤ l.foldr max 0 := by
  intro l
  induction l with
  | nil => intro n h; cases h
  | cons x xs ih =>
    intro n h
    rcases List.mem_cons.1 h with h1 | h2
    · subst h1
      exact le_max_left _ _
    · exact le_trans (ih h2) (le_max_right _ _)

theorem foldr_max_le : ∀ {l : List Nat} {b : Nat}, (∀ k ∈ l, k ≤ b) → l.foldr max 0 ≤ b := by
  intro l
  induction l with
  | nil => intro b _; exact Nat.zero_le _
  | cons x xs ih =>
    intro b h
    simp only [List.foldr_cons]
    exact max_le (h x (List.mem_cons_self _ _)) (ih (fun k hk => h k (List.mem_cons_of_mem _ hk)))

theorem pickAux_cic :
    ∀ (rows : List (List String)) (idx hi : Nat) (best : Int) (i : Nat),
      rows.findIdx? Tv.rowHasCIC = some i →
      Tv.pickHeaderAux rows idx hi best = idx + i := by
  intro rows
  induction rows with
  | nil => intro idx hi best i h; cases h
  | cons row rest ih =>
    intro idx hi best i h
    rw [List.findIdx?_cons] at h
    by_cases hc : Tv.rowHasCIC row = true
    · rw [if_pos hc] at h
      cases h
      rw [Tv.pickHeaderAux]
      simp [hc]
    · rw [Bool.not_eq_true] at hc
      rw [hc] at h
      simp only [Bool.false_eq_true, if_false] at h
      rw [List.findIdx?_succ, Option.map_eq_some'] at h
      obtain ⟨j, hj, rfl⟩ := h
      rw [Tv.pickHeaderAux]
      simp only [hc, Bool.false_eq_true, if_false]
      by_cases hb : ((Tv.countNonempty row : Int) > best)
      · rw [if_pos hb, ih _ _ _ _ hj]
        omega
      · rw [if_neg hb, ih _ _ _ _ hj]
        omega

theorem pickAux_run :
    ∀ (rows : List (List String)) (idx hi : Nat) (best : Int),
      (∀ r ∈ rows, Tv.rowHasCIC r = false) →
      Tv.pickHeaderAux rows idx hi best
        = runArgmax idx hi best (rows.map (fun r => (Tv.countNonempty r : Int))) := by
  intro rows
  induction rows with
  | nil => intro idx hi best _; rfl
  | cons row rest ih =>
    intro idx hi best hnc
    rw [Tv.pickHeaderAux, List.map_cons, runArgmax]
    have hc := hnc row (List.mem_cons_self _ _)
    simp only [hc, Bool.false_eq_true, if_false]
    by_cases hb : ((Tv.countNonempty row : Int) > best)
    · rw [if_pos hb, if_pos hb]
      exact ih _ _ _ (fun r hr => hnc r (List.mem_cons_of_mem _ hr))
    · rw [if_neg hb, if_neg hb]
      exact ih _ _ _ (fun r hr => hnc r (List.mem_cons_of_mem _ hr))

theorem runArgmax_spec :
    ∀ (counts : List Int) (idx hi : Nat) (best : Int),
      runArgmax idx hi best counts
        = if counts.any (fun c => decide (best < c)) then
            idx + counts.findIdx (fun c => decide (best < c ∧ ∀ m ∈ counts, m ≤ c))
          else hi := by
  intro counts
  induction counts with
  | nil => intro idx hi best; simp [runArgmax]
  | cons c rest ih =>
    intro idx hi best
    rw [runArgmax]
    by_cases hc : best < c
    · rw [if_pos hc, ih (idx + 1) idx c]
      have hany : ((c :: rest).any (fun d => decide (best < d))) = true := by
        simp [hc]
      rw [if_pos hany]
      by_cases hrest : rest.any (fun d => decide (c < d)) = true
      · rw [if_pos hrest]
        have hex : ∃ d ∈ rest, c < d := by simpa using hrest
        obtain ⟨d, hd, hcd⟩ := hex
        have hpc : (decide (best < c ∧ ∀ m ∈ c :: rest, m ≤ c)) = false := by
          apply decide_eq_false
          rintro ⟨-, hall⟩
          exact absurd (hall d (List.mem_cons_of_mem _ hd)) (not_le.2 hcd)
        rw [List.findIdx_cons, hpc]
        simp only [cond_false]
        have hcongr : rest.findIdx (fun d' => decide (c < d' ∧ ∀ m ∈ rest, m ≤ d'))
            = rest.findIdx (fun d' => decide (best < d' ∧ ∀ m ∈ c :: rest, m ≤ d')) := by
          apply findIdx_congr
          intro d' hd'
          by_cases hmax : ∀ m ∈ rest, m ≤ d'
          · by_cases hcd' : c < d'
            · have hb' : best < d' := lt_trans hc hcd'
              have hall : ∀ m ∈ c :: rest, m ≤ d' := by
                intro m hm
                rcases List.mem_cons.1 hm with h1 | h2
                · subst h1; exact le_of_lt hcd'
                · exact hmax m h2
              rw [decide_eq_true ⟨hcd', hmax⟩, decide_eq_true ⟨hb', hall⟩]
            · have hne1 : ¬ (c < d' ∧ ∀ m ∈ rest, m ≤ d') := fun h => hcd' h.1
              have hne2 : ¬ (best < d' ∧ ∀ m ∈ c :: rest, m ≤ d') := by
                rintro ⟨-, hall⟩
                have hcle : c ≤ d' := hall c (List.mem_cons_self _ _)
                have hceq : c = d' := le_antisymm hcle (not_lt.1 hcd')
                subst hceq
                exact absurd (hmax d hd) (not_le.2 hcd)
              rw [decide_eq_false hne1, decide_eq_false hne2]
          · have hne1 : ¬ (c < d' ∧ ∀ m ∈ rest, m ≤ d') := fun h => hmax h.2
            have hne2 : ¬ (best < d' ∧ ∀ m ∈ c :: rest, m ≤ d') := by
              rintro ⟨-, hall⟩
              exact hmax (fun m hm => hall m (List.mem_cons_of_mem _ hm))
            rw [decide_eq_false hne1, decide_eq_false hne2]
        rw [hcongr]
        omega
      · rw [if_neg hrest]
        have hall : ∀ m ∈ rest, m ≤ c := by
          intro m hm
          by_contra hlt
          exact hrest (by simp only [List.any_eq_true, decide_eq_true_eq]; exact ⟨m, hm, not_le.1 hlt⟩)
        have hpc : (decide (best < c ∧ ∀ m ∈ c :: rest, m ≤ c)) = true := by
          apply decide_eq_true
          refine ⟨hc, ?_⟩
          intro m hm
          rcases List.mem_cons.1 hm with h1 | h2
          · subst h1; exact le_refl _
          · exact hall m h2
        rw [List.findIdx_cons, hpc]
        simp only [cond_true]
        omega
    · rw [if_neg hc, ih (idx + 1) hi best]
      by_cases hrest : rest.any (fun d => decide (best < d)) = true
      · rw [if_pos hrest]
        have hany : ((c :: rest).any (fun d => decide (best < d))) = true := by
          simp only [List.any_cons, Bool.or_eq_true]
          right
          exact hrest
        rw [if_pos hany]
        have hpc : (decide (best < c ∧ ∀ m ∈ c :: rest, m ≤ c)) = false := by
          apply decide_eq_false
          rintro ⟨hbc, -⟩
          exact hc hbc
        rw [List.findIdx_cons, hpc]
        simp only [cond_false]
        have hcongr : rest.findIdx (fun d' => decide (best < d' ∧ ∀ m ∈ rest, m ≤ d'))
            = rest.findIdx (fun d' => decide (best < d' ∧ ∀ m ∈ c :: rest, m ≤ d')) := by
          apply findIdx_congr
          intro d' hd'
          by_cases hb : best < d'
          · by_cases hmax : ∀ m ∈ rest, m ≤ d'
            · have hcle : c ≤ d' := le_trans (not_lt.1 hc) (le_of_lt hb)
              have hall : ∀ m ∈ c :: rest, m ≤ d' := by
                intro m hm
                rcases List.mem_cons.1 hm with h1 | h2
                · subst h1; exact hcle
                · exact hmax m h2
              rw [decide_eq_true ⟨hb, hmax⟩, decide_eq_true ⟨hb, hall⟩]
            · have hne2 : ¬ (best < d' ∧ ∀ m ∈ c :: rest, m ≤ d') := by
                rintro ⟨-, hall⟩
                exact hmax (fun m hm => hall m (List.mem_cons_of_mem _ hm))
              rw [decide_eq_false (fun h => hmax h.2), decide_eq_false hne2]
          · rw [decide_eq_false (fun h => hb h.1), decide_eq_false (fun h => hb h.1)]
        rw [hcongr]
        omega
      · rw [if_neg hrest]
        have hany : ¬ (((c :: rest).any (fun d => decide (best < d))) = true) := by
          simp only [List.any_cons, Bool.or_eq_true]
          rintro (h1 | h2)
          · exact hc (by simpa using h1)
          · exact hrest h2
        rw [if_neg hany]

theorem findIdx_map {α β : Type _} (f : α → β) (p : β → Bool) :
    ∀ l : List α, (l.map f).findIdx p = l.findIdx (fun x => p (f x)) := by
  intro l
  induction l with
  | nil => rfl
  | cons x xs ih =>
    rw [List.map_cons, List.findIdx_cons, List.findIdx_cons]
    cases p (f x) with
    | true => rfl
    | false => simp only [cond_false, ih]

theorem pick_eq_ref (values : List (List String)) :
    Tv.pick_header values = Ref.headerIndex values := by
  rw [Tv.pick_header]
  cases hfi : (values.take 5).findIdx? Tv.rowHasCIC with
  | some i =>
    have hR : Ref.headerIndex values = i := by
      rw [Ref.headerIndex, hfi]
    rw [hR]
    simpa using pickAux_cic (values.take 5) 0 0 (-1) i hfi
  | none =>
    have hnc : ∀ r ∈ values.take 5, Tv.rowHasCIC r = false := by
      intro r hr
      exact List.findIdx?_eq_none_iff.1 hfi r hr
    have hR : Ref.headerIndex values
        = ((values.take 5).map Tv.countNonempty).findIdx
            (fun n => decide (n = ((values.take 5).map Tv.countNonempty).foldr max 0)) := by
      rw [Ref.headerIndex, hfi]
    rw [hR, pickAux_run _ _ _ _ hnc, runArgmax_spec]
    cases hempty : values.take 5 with
    | nil => simp
    | cons r0 rs =>
      have hany : (((r0 :: rs).map (fun r => (Tv.countNonempty r : Int))).any
          (fun c => decide (-1 < c))) = true := by
        simp only [List.map_cons, List.any_cons, Bool.or_eq_true]
        left
        simp only [decide_eq_true_eq]
        omega
      rw [if_pos hany, findIdx_map, findIdx_map]
      simp only [Nat.zero_add]
      apply findIdx_congr
      intro r hr
      have hmem : Tv.countNonempty r ∈ (r0 :: rs).map Tv.countNonempty :=
        List.mem_map_of_mem _ hr
      by_cases hmax : ∀ k ∈ (r0 :: rs).map Tv.countNonempty, k ≤ Tv.countNonempty r
      · have h1 : (-1 : Int) < (Tv.countNonempty r : Int) ∧
            ∀ m ∈ (r0 :: rs).map (fun r => (Tv.countNonempty r : Int)), m ≤ (Tv.countNonempty r : Int) := by
          constructor
          · omega
          · intro m hm
            obtain ⟨r', hr', rfl⟩ := List.mem_map.1 hm
            have := hmax (Tv.countNonempty r') (List.mem_map_of_mem _ hr')
            omega
        have h2 : Tv.countNonempty r = ((r0 :: rs).map Tv.countNonempty).foldr max 0 :=
          le_antisymm (le_foldr_max hmem) (foldr_max_le hmax)
        rw [decide_eq_true h1, decide_eq_true h2]
      · have h1 : ¬ ((-1 : Int) < (Tv.countNonempty r : Int) ∧
            ∀ m ∈ (r0 :: rs).map (fun r => (Tv.countNonempty r : Int)), m ≤ (Tv.countNonempty r : Int)) := by
          rintro ⟨-, hall⟩
          apply hmax
          intro k hk
          obtain ⟨r', hr', rfl⟩ := List.mem_map.1 hk
          have := hall ((Tv.countNonempty r' : Int)) (List.mem_map_of_mem _ hr')
          omega
        have h2 : ¬ (Tv.countNonempty r = ((r0 :: rs).map Tv.countNonempty).foldr max 0) := by
          intro heq
          apply hmax
          intro k hk
          rw [heq]
          exact le_foldr_max hk
        rw [decide_eq_false h1, decide_eq_false h2]


/- Lemmas for header naming and record derivation. -/

theorem count_append_singleton_self (prior : List String) (b : String) :
    (prior ++ [b]).count b = prior.count b + 1 := by
  simp [List.count_append]

theorem count_append_singleton_ne (prior : List String) {b b' : String} (h : b ≠ b') :
    (prior ++ [b]).count b' = prior.count b' := by
  simp [List.count_append, List.count_singleton', h]

theorem headerNamesAux_eq :
    ∀ (raw : List String) (j : Nat) (seen : List (String × Nat)) (prior : List String),
      (∀ b : String, alookup b seen = if prior.count b = 0 then none else some (prior.count b)) →
      Tv.buildHeadersAux raw j seen = Ref.headerNamesAux prior raw j := by
  intro raw
  induction raw with
  | nil => intro j seen prior _; rfl
  | cons h rest ih =>
    intro j seen prior hinv
    rw [Tv.buildHeadersAux, Ref.headerNamesAux]
    have hb := hinv (Tv.baseName h j)
    cases halk : alookup (Tv.baseName h j) seen with
    | none =>
      have hz : prior.count (Tv.baseName h j) = 0 := by
        by_contra hnz
        rw [hinv, if_neg hnz] at halk
        cases halk
      rw [halk] at hb
      dsimp only
      rw [if_pos hz]
      have hnext : ∀ b : String,
          alookup b (dinsert (Tv.baseName h j) 1 seen)
            = if (prior ++ [Tv.baseName h j]).count b = 0 then none
              else some ((prior ++ [Tv.baseName h j]).count b) := by
        intro b
        by_cases hbb : b = Tv.baseName h j
        · subst hbb
          rw [alookup_dinsert_self, count_append_singleton_self, hz]
          simp
        · rw [alookup_dinsert_of_ne (fun hh => hbb hh.symm) 1 seen]
          rw [count_append_singleton_ne _ (fun hh => hbb hh.symm)]
          exact hinv b
      rw [ih (j + 1) _ _ hnext]
    | some n =>
      have hz : ¬ prior.count (Tv.baseName h j) = 0 := by
        intro hz0
        rw [hinv, if_pos hz0] at halk
        cases halk
      have hn : n = prior.count (Tv.baseName h j) := by
        rw [hinv, if_neg hz] at halk
        cases halk
        rfl
      subst hn
      dsimp only
      rw [if_neg hz]
      have hnext : ∀ b : String,
          alookup b (dinsert (Tv.baseName h j) (prior.count (Tv.baseName h j) + 1) seen)
            = if (prior ++ [Tv.baseName h j]).count b = 0 then none
              else some ((prior ++ [Tv.baseName h j]).count b) := by
        intro b
        by_cases hbb : b = Tv.baseName h j
        · subst hbb
          rw [alookup_dinsert_self, count_append_singleton_self]
          simp
        · rw [alookup_dinsert_of_ne (fun hh => hbb hh.symm) _ seen]
          rw [count_append_singleton_ne _ (fun hh => hbb hh.symm)]
          exact hinv b
      rw [ih (j + 1) _ _ hnext]

theorem sheet_headers_eq (raw : List String) :
    Tv.sheet_headers raw = Ref.headerNames raw := by
  rw [Tv.sheet_headers, Ref.headerNames]
  apply headerNamesAux_eq
  intro b
  simp [alookup]

theorem zip_padded_eq_enum (headers row : List String) :
    headers.zip ((row.map Tv.norm) ++ List.replicate (headers.length - row.length) "")
      = headers.enum.map (fun p => (p.2, if p.1 < row.length then Tv.norm (row.getD p.1 "") else "")) := by
  apply List.ext_getElem
  · rw [List.length_zip, List.length_map, List.enum_length, List.length_append,
      List.length_map, List.length_replicate]
    omega
  · intro i h1 h2
    rw [List.getElem_zip, List.getElem_map, List.getElem_enum]
    rw [List.length_zip, List.length_append, List.length_map, List.length_replicate] at h1
    by_cases hir : i < row.length
    · rw [List.getElem_append_left (by rw [List.length_map]; exact hir)]
      rw [List.getElem_map]
      rw [if_pos hir]
      rw [List.getD_eq_getElem _ _ hir]
    · rw [List.getElem_append_right (by rw [List.length_map]; omega)]
      rw [List.getElem_replicate]
      rw [if_neg hir]

theorem row_record_eq (headers row : List String) :
    Tv.row_record headers row = Ref.rowRecord headers row := by
  rw [Tv.row_record, Ref.rowRecord, zip_padded_eq_enum, List.foldl_map]

theorem any_ne_not_all (row : List String) :
    (row.any (fun c => decide (Tv.norm c ≠ ""))) = !row.all (fun c => decide (Tv.norm c = "")) := by
  induction row with
  | nil => rfl
  | cons c cs ih =>
    rw [List.any_cons, List.all_cons, Bool.not_and, decide_not, ih]

theorem load_data_eq_ref (values : List (List String)) :
    Tv.load_data_from_sheet values = Ref.loadRecords values := by
  cases values with
  | nil => rfl
  | cons v0 vs =>
    simp only [Tv.load_data_from_sheet, Ref.loadRecords, List.isEmpty_cons, Bool.false_eq_true,
      if_false]
    rw [pick_eq_ref]
    rw [sheet_headers_eq]
    rw [show Tv.row_record = Ref.rowRecord from funext (fun a => funext (row_record_eq a))]
    rw [List.filter_congr (fun row _ => any_ne_not_all row)]

/-- Claim C7 (amended): record derivation from a grid follows the stated
reference rule on every grid (CIC-first header discovery over the first
five rows, earliest-most-non-empty fallback, synthetic and suffixed
de-duplicated column names, blank rows skipped, short rows padded), with
the one proviso that a later header cell that literally equals an earlier
synthesized name still collides, later columns then overwriting earlier
ones in the record; on the example grid the header row is index 2 and one
record with the four expected keys is produced. -/
theorem c7_load_records_amended :
    (∀ values : List (List String), Tv.load_data_from_sheet values = Ref.loadRecords values)
    ∧ Tv.pick_header exampleGrid7 = 2
    ∧ Tv.load_data_from_sheet exampleGrid7
        = [[("ID", "1"), ("Name", "Ana"), ("CIC", "C1"), ("Registrado", "no")]] :=
  ⟨load_data_eq_ref, by decide, by decide⟩

/-- Counterexample for C7 as stated: the derived column names are not
always pairwise distinct; a header row A, A, A_2 derives the names
A, A_2, A_2, and the duplicated name makes the later column overwrite the
earlier one in the record. -/
theorem c7_counterexample :
    Tv.sheet_headers ["A", "A", "A_2"] = ["A", "A_2", "A_2"]
    ∧ ¬ (Tv.sheet_headers ["A", "A", "A_2"]).Nodup
    ∧ Tv.load_data_from_sheet dupHeaderGrid = [[("A", "x"), ("A_2", "z")]] :=
  ⟨by decide, by decide, by decide⟩

/- Lemmas about the heap model. -/

theorem alookup_append {κ α : Type _} [DecidableEq κ] (k : κ) :
    ∀ (l1 l2 : List (κ × α)),
      alookup k (l1 ++ l2) = match alookup k l1 with
        | some v => some v
        | none => alookup k l2 := by
  intro l1 l2
  induction l1 with
  | nil => rfl
  | cons p rest ih =>
    by_cases hp : p.1 = k
    · simp [List.cons_append, alookup, hp]
    · simp [List.cons_append, alookup, hp, ih]

theorem alookup_none_of_ne {κ α : Type _} [DecidableEq κ] {k : κ} :
    ∀ {l : List (κ × α)}, (∀ p ∈ l, p.1 ≠ k) → alookup k l = none := by
  intro l
  induction l with
  | nil => intro _; rfl
  | cons p rest ih =>
    intro h
    rw [alookup, if_neg (h p (List.mem_cons_self _ _))]
    exact ih (fun q hq => h q (List.mem_cons_of_mem _ hq))

theorem mem_dinsert_cases {κ α : Type _} [DecidableEq κ] {k : κ} {v : α} {q : κ × α} :
    ∀ {l : List (κ × α)}, q ∈ dinsert k v l → q = (k, v) ∨ q ∈ l := by
  intro l
  induction l with
  | nil =>
    intro h
    rcases List.mem_singleton.1 h with rfl
    exact Or.inl rfl
  | cons p rest ih =>
    intro h
    by_cases hp : p.1 = k
    · rw [dinsert, if_pos hp] at h
      rcases List.mem_cons.1 h with h1 | h2
      · exact Or.inl h1
      · exact Or.inr (List.mem_cons_of_mem _ h2)
    · rw [dinsert, if_neg hp] at h
      rcases List.mem_cons.1 h with h1 | h2
      · exact Or.inr (h1 ▸ List.mem_cons_self _ _)
      · rcases ih h2 with h3 | h4
        · exact Or.inl h3
        · exact Or.inr (List.mem_cons_of_mem _ h4)

namespace Heap

theorem heapGet_mem {st : Store} {a : Nat} {o : Obj} (h : heapGet st a = some o) :
    (a, o) ∈ st.heap := alookup_mem h

theorem heapGet_low_of_extension {st st' : Store} {ext : List (Nat × Obj)}
    (hheap : st'.heap = st.heap ++ ext) (hwf : WF st) (hext : ∀ p ∈ ext, st.next ≤ p.1) :
    ∀ b, b < st.next → heapGet st' b = heapGet st b := by
  intro b hb
  rw [heapGet, heapGet, hheap, alookup_append]
  cases halk : alookup b st.heap with
  | some o => rfl
  | none =>
    exact alookup_none_of_ne (fun p hp => by
      have := hext p hp
      omega)

theorem heapGet_alloc_self {st : Store} (hwf : WF st) (o : Obj) :
    heapGet (allocObj o st).2 st.next = some o := by
  have hheap : (allocObj o st).2.heap = st.heap ++ [(st.next, o)] := rfl
  rw [heapGet, hheap, alookup_append]
  rw [alookup_none_of_ne (fun p hp => by
    have := (hwf p hp).1
    omega)]
  simp [alookup]

theorem WF_alloc {st : Store} (hwf : WF st) {o : Obj}
    (ho : ∀ q ∈ o, ∀ b, q.2 = HVal.ref b → b < st.next) : WF (allocObj o st).2 := by
  have hnext : (allocObj o st).2.next = st.next + 1 := rfl
  have hheap : (allocObj o st).2.heap = st.heap ++ [(st.next, o)] := rfl
  intro p hp
  rw [hheap] at hp
  rw [hnext]
  rcases List.mem_append.1 hp with h1 | h2
  · obtain ⟨hk, hr⟩ := hwf p h1
    refine ⟨by omega, fun q hq b hb => ?_⟩
    have := hr q hq b hb
    omega
  · rcases List.mem_singleton.1 h2 with rfl
    refine ⟨by omega, fun q hq b hb => ?_⟩
    have := ho q hq b hb
    omega

theorem alookup_map_update_ne {a b : Nat} (hne : b ≠ a) (f : Obj → Obj) :
    ∀ l : List (Nat × Obj),
      alookup b (l.map (fun p => if p.1 = a then (p.1, f p.2) else p)) = alookup b l := by
  intro l
  induction l with
  | nil => rfl
  | cons p rest ih =>
    by_cases hp : p.1 = a
    · have hc : ¬ (p.1 = b) := fun h => hne (h.symm.trans hp)
      rw [List.map_cons, if_pos hp, alookup, alookup]
      rw [if_neg hc, if_neg hc]
      exact ih
    · rw [List.map_cons, if_neg hp, alookup, alookup]
      by_cases hpb : p.1 = b
      · rw [if_pos hpb, if_pos hpb]
      · rw [if_neg hpb, if_neg hpb]
        exact ih

theorem heapGet_mutate_ne (a : Nat) (k : String) (v : HVal) (st : Store) (b : Nat)
    (hne : b ≠ a) : heapGet (mutateField a k v st) b = heapGet st b := by
  rw [heapGet, heapGet, mutateField]
  exact alookup_map_update_ne hne (dinsert k v) st.heap

theorem reaches_lt_of_WF {st : Store} (hwf : WF st) :
    ∀ {v : HVal} {b : Nat}, Reaches st v b → (∀ a, v = HVal.ref a → a < st.next) → b < st.next := by
  intro v b hr
  induction hr with
  | here a => intro h; exact h a rfl
  | step a b o k w hget hmem hr ih =>
    intro _
    have hnode := hwf (a, o) (heapGet_mem hget)
    exact ih (fun a' ha' => hnode.2 (k, w) hmem a' ha')


theorem readObjWith_congr {f g : HVal → Option PyTree} :
    ∀ {o : Obj}, (∀ q ∈ o, f q.2 = g q.2) → readObjWith f o = readObjWith g o := by
  intro o
  induction o with
  | nil => intro _; rfl
  | cons q rest ih =>
    intro h
    obtain ⟨k, w⟩ := q
    rw [readObjWith, readObjWith]
    rw [h (k, w) (List.mem_cons_self _ _)]
    rw [ih (fun q hq => h q (List.mem_cons_of_mem _ hq))]

theorem readVal_agree (n : Nat) :
    ∀ (g : Nat) (v : HVal) (st st2 : Store),
      (∀ a, a < n → heapGet st2 a = heapGet st a) →
      (∀ p ∈ st.heap, p.1 < n → ∀ q ∈ p.2, ∀ b, q.2 = HVal.ref b → b < n) →
      ValBelow n v →
      readVal g v st2 = readVal g v st := by
  intro g
  induction g with
  | zero =>
    intro v st st2 _ _ _
    cases v with
    | str s => rfl
    | ref a => rfl
  | succ g ih =>
    intro v st st2 hagree hclosed hv
    cases v with
    | str s => rfl
    | ref a =>
      have ha : a < n := hv a rfl
      rw [readVal, readVal, hagree a ha]
      cases hget : heapGet st a with
      | none => rfl
      | some o =>
        have hfields := hclosed (a, o) (heapGet_mem hget) ha
        dsimp only
        rw [@readObjWith_congr (fun w => readVal g w st2) (fun w => readVal g w st) o
          (fun q hq => ih q.2 st st2 hagree hclosed (fun b hb => hfields q hq b hb))]

theorem WF_mutate {st : Store} (hwf : WF st) (a : Nat) (k : String) {w : HVal}
    (hw : ValBelow st.next w) : WF (mutateField a k w st) := by
  intro p hp
  rw [mutateField] at hp
  obtain ⟨p0, hp0, hpe⟩ := List.mem_map.1 hp
  obtain ⟨hk0, hr0⟩ := hwf p0 hp0
  by_cases hpa : p0.1 = a
  · rw [if_pos hpa] at hpe
    subst hpe
    refine ⟨hk0, fun q hq b hb => ?_⟩
    rcases mem_dinsert_cases hq with h1 | h2
    · subst h1; exact hw b hb
    · exact hr0 q h2 b hb
  · rw [if_neg hpa] at hpe
    subst hpe
    exact ⟨hk0, hr0⟩

theorem reaches_ge_of_ext {st : Store} {n : Nat}
    (hext : ∀ p ∈ st.heap, n ≤ p.1 → ∀ q ∈ p.2, ValAtLeast n q.2) :
    ∀ {v : HVal} {b : Nat}, Reaches st v b → ValAtLeast n v → n ≤ b := by
  intro v b hr
  induction hr with
  | here a => intro h; exact h a rfl
  | step a b o k w hget hmem hr ih =>
    intro h
    have ha := h a rfl
    exact ih (hext (a, o) (heapGet_mem hget) ha (k, w) hmem)

theorem extFresh_mono {n m : Nat} (h : m ≤ n) {ext : List (Nat × Obj)}
    (he : ExtFresh n ext) : ExtFresh m ext := by
  intro p hp
  obtain ⟨h1, h2⟩ := he p hp
  exact ⟨le_trans h h1, fun q hq b hb => le_trans h (h2 q hq b hb)⟩

theorem extFresh_append {n : Nat} {e1 e2 : List (Nat × Obj)}
    (h1 : ExtFresh n e1) (h2 : ExtFresh n e2) : ExtFresh n (e1 ++ e2) := by
  intro p hp
  rcases List.mem_append.1 hp with h | h
  · exact h1 p h
  · exact h2 p h



theorem copyObjWith_prop (f : HVal → Store → Option (HVal × Store))
    (hf : ∀ v st v2 st2, WF st → ValBelow st.next v → f v st = some (v2, st2) →
      CopyVal st v v2 st2) :
    ∀ (o : Obj) (st : Store) (o2 : Obj) (st2 : Store), WF st →
      (∀ q ∈ o, ValBelow st.next q.2) →
      copyObjWith f o st = some (o2, st2) → CopyObj st o o2 st2 := by
  intro o
  induction o with
  | nil =>
    intro st o2 st2 hwf _ hcopy
    rw [copyObjWith] at hcopy
    injection hcopy with h
    injection h with h1 h2
    subst h1; subst h2
    exact ⟨le_refl _, hwf,
      ⟨[], (List.append_nil _).symm, fun p hp => absurd hp (List.not_mem_nil p)⟩,
      fun q hq => absurd hq (List.not_mem_nil q), fun g => rfl⟩
  | cons q rest ih =>
    intro st o2 st2 hwf ho hcopy
    obtain ⟨k, w⟩ := q
    rw [copyObjWith] at hcopy
    cases hfw : f w st with
    | none => rw [hfw] at hcopy; exact Option.noConfusion hcopy
    | some p =>
      obtain ⟨w2, st1⟩ := p
      rw [hfw] at hcopy
      dsimp only at hcopy
      cases hrest : copyObjWith f rest st1 with
      | none => rw [hrest] at hcopy; exact Option.noConfusion hcopy
      | some p2 =>
        obtain ⟨ot, stt⟩ := p2
        rw [hrest] at hcopy
        dsimp only at hcopy
        injection hcopy with h
        injection h with h1 h2
        subst h1; subst h2
        have hw2 := hf w st w2 st1 hwf (ho (k, w) (List.mem_cons_self _ _)) hfw
        obtain ⟨hle1, hwf1, ⟨ext1, hheap1, hext1⟩, hv1, hread1⟩ := hw2
        have hrest2 := ih st1 ot stt hwf1
          (fun q hq b hb => lt_of_lt_of_le (ho q (List.mem_cons_of_mem _ hq) b hb) hle1)
          hrest
        obtain ⟨hle2, hwf2, ⟨ext2, hheap2, hext2⟩, hv2, hread2⟩ := hrest2
        refine ⟨le_trans hle1 hle2, hwf2, ⟨ext1 ++ ext2, ?_, ?_⟩, ?_, ?_⟩
        · rw [hheap2, hheap1, List.append_assoc]
        · exact extFresh_append hext1 (extFresh_mono hle1 hext2)
        · intro q hq b hb
          rcases List.mem_cons.1 hq with h | h
          · subst h
            obtain ⟨hb1, hb2⟩ := hv1 b hb
            exact ⟨hb1, lt_of_lt_of_le hb2 hle2⟩
          · obtain ⟨hb1, hb2⟩ := hv2 q h b hb
            exact ⟨le_trans hle1 hb1, hb2⟩
        · intro g
          rw [readObjWith, readObjWith]
          have e1 : readVal g w2 stt = readVal g w st := by
            have hA : readVal g w2 stt = readVal g w2 st1 :=
              readVal_agree st1.next g w2 st1 stt
                (@heapGet_low_of_extension st1 stt ext2 hheap2 hwf1
                  (fun p hp => (hext2 p hp).1))
                (fun p hp hplt => (hwf1 p hp).2)
                (fun b hb => (hv1 b hb).2)
            rw [hA, hread1 g]
          have e2 : readObjWith (fun w3 => readVal g w3 stt) ot
              = readObjWith (fun w3 => readVal g w3 st) rest := by
            rw [hread2 g]
            exact @readObjWith_congr (fun w3 => readVal g w3 st1)
              (fun w3 => readVal g w3 st) rest
              (fun q hq => readVal_agree st.next g q.2 st st1
                (@heapGet_low_of_extension st st1 ext1 hheap1 hwf
                  (fun p hp => (hext1 p hp).1))
                (fun p hp hplt => (hwf p hp).2)
                (ho q (List.mem_cons_of_mem _ hq)))
          rw [e1, e2]

theorem deepCopy_prop :
    ∀ (fuel : Nat) (v : HVal) (st : Store) (v2 : HVal) (st2 : Store),
      WF st → ValBelow st.next v → deepCopy fuel v st = some (v2, st2) →
      CopyVal st v v2 st2 := by
  intro fuel
  induction fuel with
  | zero =>
    intro v st v2 st2 hwf hv hcopy
    cases v with
    | str s =>
      rw [deepCopy] at hcopy
      injection hcopy with h
      injection h with h1 h2
      subst h1; subst h2
      exact ⟨le_refl _, hwf,
        ⟨[], (List.append_nil _).symm, fun p hp => absurd hp (List.not_mem_nil p)⟩,
        fun b hb => HVal.noConfusion hb, fun g => rfl⟩
    | ref a => exact Option.noConfusion hcopy
  | succ fuel ih =>
    intro v st v2 st2 hwf hv hcopy
    cases v with
    | str s =>
      rw [deepCopy] at hcopy
      injection hcopy with h
      injection h with h1 h2
      subst h1; subst h2
      exact ⟨le_refl _, hwf,
        ⟨[], (List.append_nil _).symm, fun p hp => absurd hp (List.not_mem_nil p)⟩,
        fun b hb => HVal.noConfusion hb, fun g => rfl⟩
    | ref a =>
      rw [deepCopy] at hcopy
      cases hget : heapGet st a with
      | none => rw [hget] at hcopy; exact Option.noConfusion hcopy
      | some o =>
        rw [hget] at hcopy
        dsimp only at hcopy
        cases hco : copyObjWith (fun w st3 => deepCopy fuel w st3) o st with
        | none => rw [hco] at hcopy; exact Option.noConfusion hcopy
        | some p =>
          obtain ⟨o2, st1⟩ := p
          rw [hco] at hcopy
          dsimp only at hcopy
          rw [allocObj] at hcopy
          dsimp only at hcopy
          injection hcopy with h
          injection h with h1 h2
          subst h1; subst h2
          have hfields : ∀ q ∈ o, ValBelow st.next q.2 :=
            fun q hq b hb => (hwf (a, o) (heapGet_mem hget)).2 q hq b hb
          have hobj := copyObjWith_prop _
            (fun v st v2 st2 hw hv hc => ih v st v2 st2 hw hv hc)
            o st o2 st1 hwf hfields hco
          obtain ⟨hle1, hwf1, ⟨ext1, hheap1, hext1⟩, hv1, hread1⟩ := hobj
          have ho2 : ∀ q ∈ o2, ∀ b, q.2 = HVal.ref b → b < st1.next :=
            fun q hq b hb => (hv1 q hq b hb).2
          have hwf2 : WF (⟨st1.heap ++ [(st1.next, o2)], st1.next + 1⟩ : Store) :=
            WF_alloc hwf1 ho2
          have hga : heapGet (⟨st1.heap ++ [(st1.next, o2)], st1.next + 1⟩ : Store)
              st1.next = some o2 :=
            heapGet_alloc_self hwf1 o2
          refine ⟨le_trans hle1 (Nat.le_succ _), hwf2,
            ⟨ext1 ++ [(st1.next, o2)], ?_, ?_⟩, ?_, ?_⟩
          · show st1.heap ++ [(st1.next, o2)] = st.heap ++ (ext1 ++ [(st1.next, o2)])
            rw [hheap1, List.append_assoc]
          · refine extFresh_append hext1 (fun p hp => ?_)
            rcases List.mem_singleton.1 hp with rfl
            exact ⟨hle1, fun q hq b hb => (hv1 q hq b hb).1⟩
          · intro b hb
            injection hb with h3
            subst h3
            exact ⟨hle1, Nat.lt_succ_self _⟩
          · intro g
            cases g with
            | zero => rfl
            | succ g =>
              rw [readVal, readVal, hga, hget]
              dsimp only
              have eA : readObjWith (fun w => readVal g w
                    (⟨st1.heap ++ [(st1.next, o2)], st1.next + 1⟩ : Store)) o2
                  = readObjWith (fun w => readVal g w st1) o2 :=
                @readObjWith_congr _ _ o2 (fun q hq =>
                  readVal_agree st1.next g q.2 st1 _
                    (@heapGet_low_of_extension st1
                      (⟨st1.heap ++ [(st1.next, o2)], st1.next + 1⟩ : Store)
                      [(st1.next, o2)] rfl hwf1
                      (fun p hp => by
                        rcases List.mem_singleton.1 hp with rfl
                        exact le_refl _))
                    (fun p hp hplt => (hwf1 p hp).2)
                    (fun b hb => (hv1 q hq b hb).2))
              rw [eA, hread1 g]



theorem shallowCopy_prop {v v2 : HVal} {st st2 : Store} (hwf : WF st)
    (hv : ValBelow st.next v) (h : shallowCopy v st = some (v2, st2)) :
    st.next < st2.next ∧ WF st2 ∧
    (∃ ext, st2.heap = st.heap ++ ext ∧ ∀ p ∈ ext, st.next ≤ p.1) ∧
    (∀ b, v2 = HVal.ref b → b = st.next) ∧
    (∀ g, readVal g v2 st2 = readVal g v st) := by
  cases v with
  | str s => exact Option.noConfusion h
  | ref a =>
    rw [shallowCopy] at h
    cases hget : heapGet st a with
    | none => rw [hget] at h; exact Option.noConfusion h
    | some o =>
      rw [hget] at h
      dsimp only at h
      rw [allocObj] at h
      dsimp only at h
      injection h with h
      injection h with h1 h2
      subst h1; subst h2
      have hfields : ∀ q ∈ o, ValBelow st.next q.2 :=
        fun q hq b hb => (hwf (a, o) (heapGet_mem hget)).2 q hq b hb
      have hwf2 : WF (⟨st.heap ++ [(st.next, o)], st.next + 1⟩ : Store) :=
        WF_alloc hwf (fun q hq b hb => hfields q hq b hb)
      have hga : heapGet (⟨st.heap ++ [(st.next, o)], st.next + 1⟩ : Store)
          st.next = some o :=
        heapGet_alloc_self hwf o
      refine ⟨Nat.lt_succ_self _, hwf2, ⟨[(st.next, o)], rfl, ?_⟩, ?_, ?_⟩
      · intro p hp; rcases List.mem_singleton.1 hp with rfl; exact le_refl _
      · intro b hb
        injection hb with h3
        exact h3.symm
      · intro g
        cases g with
        | zero => rfl
        | succ g =>
          rw [readVal, readVal, hga, hget]
          dsimp only
          rw [@readObjWith_congr
            (fun w => readVal g w (⟨st.heap ++ [(st.next, o)], st.next + 1⟩ : Store))
            (fun w => readVal g w st) o
            (fun q hq => readVal_agree st.next g q.2 st _
              (@heapGet_low_of_extension st
                (⟨st.heap ++ [(st.next, o)], st.next + 1⟩ : Store)
                [(st.next, o)] rfl hwf
                (fun p hp => by rcases List.mem_singleton.1 hp with rfl; exact le_refl _))
              (fun p hp hplt => (hwf p hp).2)
              (hfields q hq))]

end Heap

theorem evict_old_singleton {α : Type _} (maxE : Int) (x : α) :
    Ph.evict_old maxE [x] = [x] := by
  rw [Ph.evict_old]
  rw [if_neg]
  intro hc
  obtain ⟨h1, h2⟩ := hc
  simp at h1
  omega

theorem purge_nil {V : Type _} (ttl now : Int) :
    Ph.purge_expired ttl now ([] : List (String × Int × V)) = [] := by
  rw [Ph.purge_expired]
  by_cases h : ttl ≤ 0
  · rw [if_pos h]
  · rw [if_neg h]
    rfl

theorem purge_keep_singleton {V : Type _} {ttl now ts : Int} (ht : 0 < ttl)
    (hfresh : now - ts ≤ ttl) (key : String) (v : V) :
    Ph.purge_expired ttl now [(key, ts, v)] = [(key, ts, v)] := by
  rw [Ph.purge_expired, if_neg (by omega)]
  rw [List.filter_cons_of_pos (by exact decide_eq_true hfresh)]
  rfl

namespace Heap

end Heap

/-- Claim C6 (amended): after set(k, v) followed within the TTL by get(k),
the tv cache returns a deep copy: a value structurally equal to v whose
root is a fresh reference, and mutating any address reachable from the
returned value leaves every later within-TTL get on the key structurally
equal to the original v.  The ph cache only stores and returns dict(value)
shallow copies: the round trip still yields a structurally equal value
with a fresh root reference, but isolation of nested substructures fails
for it (see the counterexample, where a nested mutation through the
returned reference changes what a later get returns). -/
theorem c6_copy_semantics_amended
    (fuel : Nat) (ttl maxE now₁ now₂ : Int) (key : String) (v : Heap.HVal)
    (c : List (String × Int × Heap.HVal)) (st : Heap.Store)
    (hwf : Heap.WF st) (hv : Heap.ValBelow st.next v)
    (httl : 0 < ttl) (hfresh : now₂ - now₁ ≤ ttl) :
    (∀ c₁ st₁ r c₂ st₂,
      Heap.tvSetH fuel ttl now₁ key v c st = some (c₁, st₁) →
      Heap.tvGetH fuel ttl now₂ key c₁ st₁ = some (r, c₂, st₂) →
      ∃ v₂, r = some v₂ ∧
        (∀ g, Heap.readVal g v₂ st₂ = Heap.readVal g v st) ∧
        (∀ b, v₂ = Heap.HVal.ref b → st.next ≤ b) ∧
        (∀ a k2 w2 now₃ r₃ c₃ st₃,
          Heap.Reaches st₂ v₂ a →
          Heap.ValBelow st₂.next w2 →
          now₃ - now₁ ≤ ttl →
          Heap.tvGetH fuel ttl now₃ key c₂ (Heap.mutateField a k2 w2 st₂)
            = some (r₃, c₃, st₃) →
          ∃ v₃, r₃ = some v₃ ∧
            ∀ g, Heap.readVal g v₃ st₃ = Heap.readVal g v st)) ∧
    (∀ c₁ st₁ r c₂ st₂,
      Heap.phSetH ttl maxE now₁ key v [] st = some (c₁, st₁) →
      Heap.phGetH ttl now₂ key c₁ st₁ = some (r, c₂, st₂) →
      ∃ v₂, r = some v₂ ∧
        (∀ g, Heap.readVal g v₂ st₂ = Heap.readVal g v st) ∧
        (∀ b, v₂ = Heap.HVal.ref b → st.next ≤ b)) := by
  constructor
  · intro c₁ st₁ r c₂ st₂ hset hget2
    rw [Heap.tvSetH, if_neg (by omega : ¬ ttl ≤ 0)] at hset
    cases hdc : Heap.deepCopy fuel v st with
    | none => rw [hdc] at hset; exact Option.noConfusion hset
    | some p =>
      obtain ⟨v1, stA⟩ := p
      rw [hdc] at hset
      dsimp only at hset
      cases hset
      rw [Heap.tvGetH, if_neg (by omega : ¬ ttl ≤ 0), alookup_dinsert_self] at hget2
      dsimp only at hget2
      rw [if_neg (by omega : ¬ now₂ - now₁ > ttl)] at hget2
      cases hdc2 : Heap.deepCopy fuel v1 st₁ with
      | none => rw [hdc2] at hget2; exact Option.noConfusion hget2
      | some p2 =>
        obtain ⟨v2x, stB⟩ := p2
        rw [hdc2] at hget2
        dsimp only at hget2
        cases hget2
        obtain ⟨hle1, hwf1, ⟨ext1, hheap1, hext1⟩, hv1, hread1⟩ :=
          Heap.deepCopy_prop fuel v st v1 st₁ hwf hv hdc
        have hv1B : Heap.ValBelow st₁.next v1 := fun b hb => (hv1 b hb).2
        obtain ⟨hle2, hwf2, ⟨ext2, hheap2, hext2⟩, hv2, hread2⟩ :=
          Heap.deepCopy_prop fuel v1 st₁ v2x st₂ hwf1 hv1B hdc2
        refine ⟨v2x, rfl, ?_, ?_, ?_⟩
        · intro g; rw [hread2 g, hread1 g]
        · intro b hb; exact le_trans hle1 (hv2 b hb).1
        · intro a k2 w2 now₃ r₃ c₃ st₃ hreach hw2 hfr3 hget3
          have hroot : Heap.ValAtLeast st₁.next v2x := fun b hb => (hv2 b hb).1
          have hextP : ∀ p ∈ st₂.heap, st₁.next ≤ p.1 →
              ∀ q ∈ p.2, Heap.ValAtLeast st₁.next q.2 := by
            intro p hp hge q hq
            rw [hheap2] at hp
            rcases List.mem_append.1 hp with h | h
            · exact absurd hge (by have := (hwf1 p h).1; omega)
            · exact (hext2 p h).2 q hq
          have ha : st₁.next ≤ a := Heap.reaches_ge_of_ext hextP hreach hroot
          rw [Heap.tvGetH, if_neg (by omega : ¬ ttl ≤ 0), alookup_dinsert_self] at hget3
          dsimp only at hget3
          rw [if_neg (by omega : ¬ now₃ - now₁ > ttl)] at hget3
          cases hdc3 : Heap.deepCopy fuel v1 (Heap.mutateField a k2 w2 st₂) with
          | none => rw [hdc3] at hget3; exact Option.noConfusion hget3
          | some p3 =>
            obtain ⟨v3x, stC⟩ := p3
            rw [hdc3] at hget3
            dsimp only at hget3
            cases hget3
            have hwfM : Heap.WF (Heap.mutateField a k2 w2 st₂) :=
              Heap.WF_mutate hwf2 a k2 hw2
            have hv1M : Heap.ValBelow (Heap.mutateField a k2 w2 st₂).next v1 :=
              fun b hb => lt_of_lt_of_le (hv1 b hb).2 hle2
            obtain ⟨hle3, hwf3, hext3P, hv3, hread3⟩ :=
              Heap.deepCopy_prop fuel v1 _ v3x st₃ hwfM hv1M hdc3
            refine ⟨v3x, rfl, ?_⟩
            intro g
            have eM : Heap.readVal g v1 (Heap.mutateField a k2 w2 st₂)
                = Heap.readVal g v1 st₂ :=
              Heap.readVal_agree st₁.next g v1 st₂ _
                (fun b hb => Heap.heapGet_mutate_ne a k2 w2 st₂ b (by omega))
                (by
                  intro p hp hplt q hq b hb
                  rw [hheap2] at hp
                  rcases List.mem_append.1 hp with h | h
                  · exact (hwf1 p h).2 q hq b hb
                  · exact absurd hplt (by have := (hext2 p h).1; omega))
                hv1B
            have eE : Heap.readVal g v1 st₂ = Heap.readVal g v1 st₁ :=
              Heap.readVal_agree st₁.next g v1 st₁ st₂
                (@Heap.heapGet_low_of_extension st₁ st₂ ext2 hheap2 hwf1
                  (fun p hp => (hext2 p hp).1))
                (fun p hp hplt => (hwf1 p hp).2)
                hv1B
            rw [hread3 g, eM, eE, hread1 g]
  · intro c₁ st₁ r c₂ st₂ hset hget2
    rw [Heap.phSetH, if_neg (by omega : ¬ ttl ≤ 0)] at hset
    rw [purge_nil] at hset
    dsimp only at hset
    simp only [List.filter_nil, List.nil_append] at hset
    cases hsc : Heap.shallowCopy v st with
    | none => rw [hsc] at hset; exact Option.noConfusion hset
    | some p =>
      obtain ⟨v1, stA⟩ := p
      rw [hsc] at hset
      dsimp only at hset
      rw [evict_old_singleton] at hset
      cases hset
      obtain ⟨hlt1, hwf1, ⟨ext1, hheap1, hext1⟩, hv1, hread1⟩ :=
        Heap.shallowCopy_prop hwf hv hsc
      have hv1B : Heap.ValBelow st₁.next v1 := fun b hb => by
        have := hv1 b hb; omega
      rw [Heap.phGetH, if_neg (by omega : ¬ ttl ≤ 0)] at hget2
      rw [purge_keep_singleton httl hfresh] at hget2
      dsimp only at hget2
      have halk : alookup key [(key, (now₁, v1))] = some (now₁, v1) := by
        rw [alookup, if_pos rfl]
      rw [halk] at hget2
      dsimp only at hget2
      cases hsc2 : Heap.shallowCopy v1 st₁ with
      | none => rw [hsc2] at hget2; exact Option.noConfusion hget2
      | some p2 =>
        obtain ⟨v2x, stB⟩ := p2
        rw [hsc2] at hget2
        dsimp only at hget2
        cases hget2
        obtain ⟨hlt2, hwf2, hextP2, hv2, hread2⟩ :=
          Heap.shallowCopy_prop hwf1 hv1B hsc2
        refine ⟨v2x, rfl, ?_, ?_⟩
        · intro g; rw [hread2 g, hread1 g]
        · intro b hb
          have := hv2 b hb
          omega

/-- Claim C6 counterexample: the ph cache stores and returns shallow
dict(value) copies, so after set and get of a nested dict, mutating the
inner dict reached through the returned reference (address 0, reachable
from the returned root) changes what a later get on the same key returns:
it reads back the mutated field value 2, not the originally stored 1. -/
theorem c6_counterexample :
    ∃ (c₁ : List (String × Int × Heap.HVal)) (st₁ : Heap.Store) (v₂ : Heap.HVal)
      (c₂ : List (String × Int × Heap.HVal)) (st₂ : Heap.Store)
      (v₃ : Heap.HVal) (c₃ : List (String × Int × Heap.HVal)) (st₃ : Heap.Store),
      Heap.phSetH 10 64 0 "k" (Heap.HVal.ref 1) [] leakStore = some (c₁, st₁) ∧
      Heap.phGetH 10 5 "k" c₁ st₁ = some (some v₂, c₂, st₂) ∧
      Heap.Reaches st₂ v₂ 0 ∧
      Heap.phGetH 10 9 "k" c₂ (Heap.mutateField 0 "b" (Heap.HVal.str "2") st₂)
        = some (some v₃, c₃, st₃) ∧
      Heap.readVal 3 v₃ st₃ ≠ Heap.readVal 3 (Heap.HVal.ref 1) leakStore := by
  refine ⟨[("k", ((0 : Int), Heap.HVal.ref 2))],
    ⟨[(0, [("b", Heap.HVal.str "1")]), (1, [("a", Heap.HVal.ref 0)]),
      (2, [("a", Heap.HVal.ref 0)])], 3⟩,
    Heap.HVal.ref 3,
    [("k", ((0 : Int), Heap.HVal.ref 2))],
    ⟨[(0, [("b", Heap.HVal.str "1")]), (1, [("a", Heap.HVal.ref 0)]),
      (2, [("a", Heap.HVal.ref 0)]), (3, [("a", Heap.HVal.ref 0)])], 4⟩,
    Heap.HVal.ref 4,
    [("k", ((0 : Int), Heap.HVal.ref 2))],
    ⟨[(0, [("b", Heap.HVal.str "2")]), (1, [("a", Heap.HVal.ref 0)]),
      (2, [("a", Heap.HVal.ref 0)]), (3, [("a", Heap.HVal.ref 0)]),
      (4, [("a", Heap.HVal.ref 0)])], 5⟩,
    rfl, rfl, ?_, rfl, ?_⟩
  · exact Heap.Reaches.step 3 0 [("a", Heap.HVal.ref 0)] "a" (Heap.HVal.ref 0)
      rfl (List.mem_singleton.2 rfl) (Heap.Reaches.here 0)
  · intro h
    injection h with h
    injection h with h
    injection h with h1 h2
    injection h1 with ha hb
    injection hb with hb
    injection hb with hb1 hb2
    injection hb1 with hc hd
    injection hd with hd
    exact absurd hd (by decide)

theorem c6_copy_semantics_amended_witness :
    Heap.WF flatStore ∧ Heap.ValBelow flatStore.next (Heap.HVal.ref 0) ∧
    (0 : Int) < 10 ∧ (5 : Int) - 0 ≤ 10 ∧
    (∃ v₂, some (Heap.HVal.ref 2) = some v₂ ∧
      ∀ g, Heap.readVal g v₂
          (⟨[(0, [("x", Heap.HVal.str "1")]), (1, [("x", Heap.HVal.str "1")]),
             (2, [("x", Heap.HVal.str "1")])], 3⟩ : Heap.Store)
        = Heap.readVal g (Heap.HVal.ref 0) flatStore) := by
  have hwf : Heap.WF flatStore := by
    intro p hp
    rcases List.mem_singleton.1 hp with rfl
    exact ⟨Nat.zero_lt_one, fun q hq b hb => by
      rcases List.mem_singleton.1 hq with rfl
      exact Heap.HVal.noConfusion hb⟩
  have hv : Heap.ValBelow flatStore.next (Heap.HVal.ref 0) := by
    intro b hb
    injection hb with h
    cases h
    exact Nat.zero_lt_one
  refine ⟨hwf, hv, by decide, by decide, ?_⟩
  have h := (c6_copy_semantics_amended 3 10 64 0 5 "k" (Heap.HVal.ref 0) [] flatStore
    hwf hv (by decide) (by decide)).1
    [("k", ((0 : Int), Heap.HVal.ref 1))]
    (⟨[(0, [("x", Heap.HVal.str "1")]), (1, [("x", Heap.HVal.str "1")])], 2⟩ : Heap.Store)
    (some (Heap.HVal.ref 2))
    [("k", ((0 : Int), Heap.HVal.ref 1))]
    (⟨[(0, [("x", Heap.HVal.str "1")]), (1, [("x", Heap.HVal.str "1")]),
       (2, [("x", Heap.HVal.str "1")])], 3⟩ : Heap.Store)
    rfl rfl
  exact h.imp (fun v₂ hh => ⟨hh.1, hh.2.1⟩)
